import Mathlib

/-!
Verification of `src/trie.py`: a weighted trie for autocomplete.

Modelling choices (shallow embedding):
* Python strings are `List Char`; Python compares strings by code point, which
  matches the order on `Char`.
* Python floats are modelled as `ℚ`: the claims under study involve only exact
  comparisons of ordinary numeric weights (no NaN / rounding behaviour).
* A node's `children` dict is an association list `List (Char × TrieNode)`.
  A Python dict has pairwise-distinct keys; states whose association lists
  have distinct keys everywhere are the dict-representable states and are
  described by `goodKeys` below.  Dict insertion order is kept (a fresh key
  is appended at the end), matching CPython; it is unobservable anyway since
  every traversal in the source iterates over `sorted(node.children.keys())`.
* Python `list.sort` is a stable ascending sort; `insSort` below is a stable
  ascending insertion sort, `candLe` is the key order `(-freq, word)`.
* `candidates[:k]` is Python list slicing, including its negative-`k`
  behaviour (drop the last `|k|` elements); `pySlice` reproduces it.
* The recursive subtree scan of `complete` is phrased with an explicit
  structural bound (`nodeCount`, the number of nodes of the subtree), so that
  it both terminates structurally and evaluates in the kernel;
  `collect_eq` below recovers the exact recurrence of the source.
-/

inductive TrieNode where
  | mk (children : List (Char × TrieNode)) (is_word : Bool) (freq : ℚ)

def TrieNode.children : TrieNode → List (Char × TrieNode)
  | .mk cs _ _ => cs

def TrieNode.is_word : TrieNode → Bool
  | .mk _ w _ => w

def TrieNode.freq : TrieNode → ℚ
  | .mk _ _ q => q

/-- `d in node.children` / `node.children[d]`: first binding of `d`. -/
def findChild (c : Char) : List (Char × TrieNode) → Option TrieNode
  | [] => none
  | (d, t) :: rest => if d = c then some t else findChild c rest

/-- `node.children[d] = t` on a present key: replace the first binding. -/
def setChild (c : Char) (t : TrieNode) : List (Char × TrieNode) → List (Char × TrieNode)
  | [] => []
  | (d, u) :: rest => if d = c then (d, t) :: rest else (d, u) :: setChild c t rest

/-- `del node.children[d]`: drop the first binding of `d`. -/
def delChild (c : Char) : List (Char × TrieNode) → List (Char × TrieNode)
  | [] => []
  | (d, u) :: rest => if d = c then rest else (d, u) :: delChild c rest

/-- Body of `Trie.insert`: returns the rebuilt node, the number of `TrieNode()`
allocations performed (`self._nodes` increments) and whether the final node was
not yet a word (`self._words` increment). -/
def insertAux : TrieNode → List Char → ℚ → TrieNode × Nat × Bool
  | .mk cs w _, [], f => (.mk cs true f, 0, !w)
  | .mk cs w q, c :: rest, f =>
    match findChild c cs with
    | some child =>
      let r := insertAux child rest f
      (.mk (setChild c r.1 cs) w q, r.2)
    | none =>
      let r := insertAux (.mk [] false 0) rest f
      (.mk (cs ++ [(c, r.1)]) w q, r.2.1 + 1, r.2.2)

/-- Body of `Trie._remove`: returns the rebuilt node, the `should_delete`
flag handed to the parent frame, the number of `self._words` decrements and
the number of `self._nodes` decrements performed in the subtree. -/
def removeAux : TrieNode → List Char → TrieNode × Bool × Nat × Nat
  | .mk cs w q, [] =>
    if w then (.mk cs false q, cs.isEmpty, 1, 0)
    else (.mk cs w q, false, 0, 0)
  | .mk cs w q, c :: rest =>
    match findChild c cs with
    | none => (.mk cs w q, false, 0, 0)
    | some child =>
      let r := removeAux child rest
      if r.2.1 then
        let cs' := delChild c cs
        (.mk cs' w q, cs'.isEmpty && !w, r.2.2.1, r.2.2.2 + 1)
      else
        (.mk (setChild c r.1 cs) w q, false, r.2.2.1, r.2.2.2)

/-- Body of `Trie.contains`. -/
def containsAux : TrieNode → List Char → Bool
  | n, [] => n.is_word
  | n, c :: rest =>
    match findChild c n.children with
    | none => false
    | some child => containsAux child rest

/-- The walk shared by `contains` and `complete`: the node at the end of a
path, if the whole path exists. -/
def findNode : TrieNode → List Char → Option TrieNode
  | n, [] => some n
  | n, c :: rest =>
    match findChild c n.children with
    | none => none
    | some child => findNode child rest

/-- The weight stored for a word: `some` of the destination node's `freq`
when the destination exists and is terminal, else `none`. -/
def lookupWord : TrieNode → List Char → Option ℚ
  | n, [] => if n.is_word then some n.freq else none
  | n, c :: rest =>
    match findChild c n.children with
    | none => none
    | some child => lookupWord child rest

/-- Strict lexicographic order on words (Python `<` on strings). -/
def lexLt : List Char → List Char → Bool
  | [], [] => false
  | [], _ :: _ => true
  | _ :: _, [] => false
  | a :: as, b :: bs => if a < b then true else if b < a then false else lexLt as bs

/-- Lexicographic order on words (Python `<=` on strings). -/
def lexLe : List Char → List Char → Bool
  | [], _ => true
  | _ :: _, [] => false
  | a :: as, b :: bs => if a < b then true else if b < a then false else lexLe as bs

/-- `begins p s`: the word `s` starts with the path `p`. -/
def begins : List Char → List Char → Bool
  | [], _ => true
  | _ :: _, [] => false
  | a :: as, b :: bs => a == b && begins as bs

/-- Insert into an ascending list, before the first element not strictly
below `x` (so the overall sort is stable, like Python `list.sort`). -/
def insOrd (le : α → α → Bool) (x : α) : List α → List α
  | [] => [x]
  | y :: ys => if le y x && !(le x y) then y :: insOrd le x ys else x :: y :: ys

/-- Stable ascending insertion sort (the behaviour of Python `list.sort` /
`sorted` on the lists arising here). -/
def insSort (le : α → α → Bool) : List α → List α
  | [] => []
  | x :: xs => insOrd le x (insSort le xs)

/-- Order used for `sorted(node.children.keys())`. -/
def childLe (a b : Char × TrieNode) : Bool := a.1 ≤ b.1

/-- The sort key `(-freq, word)` of `complete`, as a boolean total order. -/
def candLe (a b : ℚ × List Char) : Bool :=
  if b.1 < a.1 then true
  else if a.1 < b.1 then false
  else lexLe a.2 b.2

mutual
/-- Number of nodes of a subtree (the node itself included). -/
def nodeCount : TrieNode → Nat
  | .mk cs _ _ => 1 + countList cs

def countList : List (Char × TrieNode) → Nat
  | [] => 0
  | (_, t) :: rest => nodeCount t + countList rest
end

mutual
/-- Number of terminal nodes of a subtree. -/
def termCount : TrieNode → Nat
  | .mk cs w _ => (if w then 1 else 0) + termList cs

def termList : List (Char × TrieNode) → Nat
  | [] => 0
  | (_, t) :: rest => termCount t + termList rest
end

mutual
/-- Every association list in the subtree has pairwise-distinct keys:
exactly the states representable with Python dicts. -/
def goodKeys : TrieNode → Bool
  | .mk cs _ _ => goodList cs

def goodList : List (Char × TrieNode) → Bool
  | [] => true
  | (c, t) :: rest => !(findChild c rest).isSome && goodKeys t && goodList rest
end

mutual
/-- `liveNode n`: `n` is terminal or has a child, and so is every descendant
(no dead leaves anywhere in the subtree). -/
def liveNode : TrieNode → Bool
  | .mk cs w _ => (w || !cs.isEmpty) && liveList cs

def liveList : List (Char × TrieNode) → Bool
  | [] => true
  | (_, t) :: rest => liveNode t && liveList rest
end

mutual
/-- `get_height` of `Trie.stats`. -/
def getHeight : TrieNode → Nat
  | .mk cs _ _ => if cs.isEmpty then 0 else 1 + heightList cs

def heightList : List (Char × TrieNode) → Nat
  | [] => 0
  | (_, t) :: rest => max (getHeight t) (heightList rest)
end

/-- The subtree word scan of `complete`, with an explicit structural bound so
that the recursion is structural; `collect` instantiates the bound with the
subtree's node count, which the recursion never exhausts (`collect_eq`). -/
def collectF : Nat → TrieNode → List Char → List (ℚ × List Char)
  | 0, _, _ => []
  | fuel + 1, n, path =>
    (if n.is_word then [(n.freq, path)] else []) ++
    (insSort childLe n.children).flatMap (fun x => collectF fuel x.2 (path ++ [x.1]))

/-- `collect(node, path)` of `Trie.complete`: all `(freq, word)` pairs of the
subtree, children visited in ascending symbol order. -/
def collect (n : TrieNode) (path : List Char) : List (ℚ × List Char) :=
  collectF (nodeCount n) n path

/-- Python list slicing `l[:k]`, negative `k` included. -/
def pySlice (k : Int) (l : List α) : List α :=
  if 0 ≤ k then l.take k.toNat
  else l.take ((l.length : Int) + k).toNat

structure Trie where
  root : TrieNode
  words : Int
  nodes : Int

/-- `Trie.__init__`. -/
def Trie.empty : Trie := ⟨.mk [] false 0, 0, 1⟩

/-- `Trie.insert`. -/
def Trie.insert (t : Trie) (w : List Char) (f : ℚ) : Trie :=
  let r := insertAux t.root w f
  ⟨r.1, t.words + (if r.2.2 then 1 else 0), t.nodes + (r.2.1 : Int)⟩

/-- `Trie.remove`: the resulting state and the returned boolean. -/
def Trie.remove (t : Trie) (w : List Char) : Trie × Bool :=
  let r := removeAux t.root w
  (⟨r.1, t.words - (r.2.2.1 : Int), t.nodes - (r.2.2.2 : Int)⟩, r.2.1)

/-- `Trie.contains`. -/
def Trie.contains (t : Trie) (w : List Char) : Bool := containsAux t.root w

/-- `Trie.complete`. -/
def Trie.complete (t : Trie) (p : List Char) (k : Int) : List (List Char) :=
  match findNode t.root p with
  | none => []
  | some n => (pySlice k (insSort candLe (collect n p))).map Prod.snd

/-- `Trie.stats`: `(words, height, nodes)`. -/
def Trie.stats (t : Trie) : Int × Nat × Int := (t.words, getHeight t.root, t.nodes)

/-- The weight the trie currently stores for `w`, if any. -/
def Trie.weightOf (t : Trie) (w : List Char) : Option ℚ := lookupWord t.root w

/-- Dict-representability of a state: every children map has distinct keys. -/
def Trie.goodDict (t : Trie) : Prop := goodKeys t.root = true

/-- The structural invariants of §3 of the spec: dict-representable keys, no
dead leaf below the root, and the two counters agree with the real tree. -/
def Trie.WF (t : Trie) : Prop :=
  goodKeys t.root = true ∧ liveList t.root.children = true ∧
  t.words = (termCount t.root : Int) ∧ t.nodes = (nodeCount t.root : Int)

/-- States reachable from the empty trie by `insert` / `remove` calls. -/
inductive Trie.Reachable : Trie → Prop
  | empty : Trie.Reachable Trie.empty
  | insert (w : List Char) (f : ℚ) {t : Trie} :
      Trie.Reachable t → Trie.Reachable (t.insert w f)
  | remove (w : List Char) {t : Trie} :
      Trie.Reachable t → Trie.Reachable (t.remove w).1

/-- The ranking order of the spec on stored words: weight descending, ties
broken by word ascending. -/
def Trie.rankLT (t : Trie) (a b : List Char) : Prop :=
  ∃ qa qb, t.weightOf a = some qa ∧ t.weightOf b = some qb ∧
    (qb < qa ∨ (qa = qb ∧ lexLt a b = true))

instance (t : Trie) : Decidable t.goodDict := by
  unfold Trie.goodDict
  exact inferInstance

instance (t : Trie) : Decidable t.WF := by
  unfold Trie.WF
  exact inferInstance

/-! ### Basic facts about children association lists -/

theorem nodeCount_eq (n : TrieNode) : nodeCount n = 1 + countList n.children := by
  cases n
  rfl

theorem termCount_eq (n : TrieNode) :
    termCount n = (if n.is_word then 1 else 0) + termList n.children := by
  cases n
  rfl

theorem goodKeys_eq (n : TrieNode) : goodKeys n = goodList n.children := by
  cases n
  rfl

theorem liveNode_eq (n : TrieNode) :
    liveNode n = ((n.is_word || !n.children.isEmpty) && liveList n.children) := by
  cases n
  rfl

theorem getHeight_eq (n : TrieNode) :
    getHeight n = if n.children.isEmpty then 0 else 1 + heightList n.children := by
  cases n
  rfl

theorem nodeCount_pos (n : TrieNode) : 1 ≤ nodeCount n := by
  rw [nodeCount_eq]
  omega

theorem countList_eq_zero {cs : List (Char × TrieNode)} (h : countList cs = 0) :
    cs = [] := by
  cases cs with
  | nil => rfl
  | cons x rest =>
    exfalso
    have := nodeCount_pos x.2
    simp only [countList] at h
    omega

theorem mem_of_findChild {c : Char} {cs : List (Char × TrieNode)} {t : TrieNode}
    (h : findChild c cs = some t) : (c, t) ∈ cs := by
  induction cs with
  | nil => simp [findChild] at h
  | cons x rest ih =>
    obtain ⟨d, u⟩ := x
    simp only [findChild] at h
    by_cases hd : d = c
    · subst hd
      simp at h
      subst h
      exact List.mem_cons_self _ _
    · simp [hd] at h
      exact List.mem_cons_of_mem _ (ih h)

theorem findChild_eq_none {c : Char} {cs : List (Char × TrieNode)}
    (h : findChild c cs = none) : ∀ t, (c, t) ∉ cs := by
  intro t hmem
  induction cs with
  | nil => simp at hmem
  | cons x rest ih =>
    obtain ⟨d, u⟩ := x
    simp only [findChild] at h
    by_cases hd : d = c
    · simp [hd] at h
    · simp [hd] at h
      rcases List.mem_cons.1 hmem with h1 | h1
      · exact hd (congrArg Prod.fst h1).symm
      · exact ih h h1

theorem findChild_of_mem_good {c : Char} {cs : List (Char × TrieNode)} {t : TrieNode}
    (hg : goodList cs = true) (hmem : (c, t) ∈ cs) : findChild c cs = some t := by
  induction cs with
  | nil => simp at hmem
  | cons x rest ih =>
    obtain ⟨d, u⟩ := x
    simp only [goodList, Bool.and_eq_true, Bool.not_eq_true'] at hg
    rcases List.mem_cons.1 hmem with h1 | h1
    · simp only [Prod.mk.injEq] at h1
      obtain ⟨hc, ht⟩ := h1
      subst hc
      subst ht
      simp [findChild]
    · have hne : d ≠ c := by
        intro hdc
        subst hdc
        have := findChild_eq_none (by simpa using hg.1.1) t h1
        exact this
      simp only [findChild, hne, if_false]
      exact ih hg.2 h1

theorem goodKeys_of_findChild {c : Char} {cs : List (Char × TrieNode)} {t : TrieNode}
    (hg : goodList cs = true) (h : findChild c cs = some t) : goodKeys t = true := by
  induction cs with
  | nil => simp [findChild] at h
  | cons x rest ih =>
    obtain ⟨d, u⟩ := x
    simp only [goodList, Bool.and_eq_true] at hg
    simp only [findChild] at h
    by_cases hd : d = c
    · simp [hd] at h
      exact h ▸ hg.1.2
    · simp [hd] at h
      exact ih hg.2 h

theorem liveNode_of_findChild {c : Char} {cs : List (Char × TrieNode)} {t : TrieNode}
    (hl : liveList cs = true) (h : findChild c cs = some t) : liveNode t = true := by
  induction cs with
  | nil => simp [findChild] at h
  | cons x rest ih =>
    obtain ⟨d, u⟩ := x
    simp only [liveList, Bool.and_eq_true] at hl
    simp only [findChild] at h
    by_cases hd : d = c
    · simp [hd] at h
      exact h ▸ hl.1
    · simp [hd] at h
      exact ih hl.2 h

theorem findChild_setChild_self {c : Char} {cs : List (Char × TrieNode)} {u t : TrieNode}
    (h : findChild c cs = some u) : findChild c (setChild c t cs) = some t := by
  induction cs with
  | nil => simp [findChild] at h
  | cons x rest ih =>
    obtain ⟨d, v⟩ := x
    simp only [findChild, setChild] at *
    by_cases hd : d = c
    · simp [hd, findChild]
    · simp only [hd, if_false] at h
      simp [hd, findChild, ih h]

theorem findChild_setChild_ne {c d : Char} {cs : List (Char × TrieNode)} {t : TrieNode}
    (hne : d ≠ c) : findChild d (setChild c t cs) = findChild d cs := by
  induction cs with
  | nil => simp [setChild]
  | cons x rest ih =>
    obtain ⟨e, v⟩ := x
    simp only [setChild]
    by_cases he : e = c
    · subst he
      simp [findChild, show ¬(e = d) from fun h => hne h.symm]
    · simp only [he, if_false, findChild]
      by_cases hed : e = d
      · simp [hed]
      · simp [hed, ih]

theorem setChild_self {c : Char} {cs : List (Char × TrieNode)} {t : TrieNode}
    (h : findChild c cs = some t) : setChild c t cs = cs := by
  induction cs with
  | nil => rfl
  | cons x rest ih =>
    obtain ⟨d, v⟩ := x
    simp only [findChild, setChild] at *
    by_cases hd : d = c
    · simp only [hd, if_true] at h ⊢
      simp at h
      simp [h]
    · simp only [hd, if_false] at h ⊢
      simp [ih h]

theorem findChild_delChild_ne {c d : Char} {cs : List (Char × TrieNode)}
    (hne : d ≠ c) : findChild d (delChild c cs) = findChild d cs := by
  induction cs with
  | nil => simp [delChild]
  | cons x rest ih =>
    obtain ⟨e, v⟩ := x
    simp only [delChild]
    by_cases he : e = c
    · subst he
      simp [findChild, show ¬(e = d) from fun h => hne h.symm]
    · simp only [he, if_false, findChild]
      by_cases hed : e = d
      · simp [hed]
      · simp [hed, ih]

theorem findChild_delChild_self {c : Char} {cs : List (Char × TrieNode)}
    (hg : goodList cs = true) : findChild c (delChild c cs) = none := by
  induction cs with
  | nil => simp [delChild, findChild]
  | cons x rest ih =>
    obtain ⟨d, v⟩ := x
    simp only [goodList, Bool.and_eq_true, Bool.not_eq_true'] at hg
    simp only [delChild]
    by_cases hd : d = c
    · subst hd
      simp only [if_true]
      simpa using hg.1.1
    · simp only [hd, if_false, findChild, hd, if_false]
      exact ih hg.2

theorem findChild_append_none {c : Char} {cs : List (Char × TrieNode)} {t : TrieNode}
    (h : findChild c cs = none) : findChild c (cs ++ [(c, t)]) = some t := by
  induction cs with
  | nil => simp [findChild]
  | cons x rest ih =>
    obtain ⟨d, v⟩ := x
    simp only [findChild] at *
    by_cases hd : d = c
    · simp [hd] at h
    · simp only [hd, if_false] at h ⊢
      exact ih h

theorem findChild_append_ne {c d : Char} {cs : List (Char × TrieNode)} {t : TrieNode}
    (hne : d ≠ c) : findChild d (cs ++ [(c, t)]) = findChild d cs := by
  induction cs with
  | nil => simp [findChild, show ¬(c = d) from fun h => hne h.symm]
  | cons x rest ih =>
    obtain ⟨e, v⟩ := x
    simp only [findChild, List.cons_append]
    by_cases he : e = d
    · simp [he]
    · simp [he, ih]

theorem delChild_append {c : Char} {cs : List (Char × TrieNode)} {t : TrieNode}
    (h : findChild c cs = none) : delChild c (cs ++ [(c, t)]) = cs := by
  induction cs with
  | nil => simp [delChild]
  | cons x rest ih =>
    obtain ⟨d, v⟩ := x
    simp only [findChild] at h
    by_cases hd : d = c
    · simp [hd] at h
    · simp only [hd, if_false] at h
      simp only [List.cons_append, delChild, hd, if_false]
      simp [ih h]

theorem countList_setChild {c : Char} {cs : List (Char × TrieNode)} {u t : TrieNode}
    (h : findChild c cs = some u) :
    countList (setChild c t cs) + nodeCount u = countList cs + nodeCount t := by
  induction cs with
  | nil => simp [findChild] at h
  | cons x rest ih =>
    obtain ⟨d, v⟩ := x
    simp only [findChild, setChild] at *
    by_cases hd : d = c
    · simp only [hd, if_true] at h ⊢
      simp at h
      subst h
      simp only [countList]
      omega
    · simp only [hd, if_false] at h ⊢
      simp only [countList]
      have := ih h
      omega

theorem countList_delChild {c : Char} {cs : List (Char × TrieNode)} {u : TrieNode}
    (h : findChild c cs = some u) :
    countList (delChild c cs) + nodeCount u = countList cs := by
  induction cs with
  | nil => simp [findChild] at h
  | cons x rest ih =>
    obtain ⟨d, v⟩ := x
    simp only [findChild, delChild] at *
    by_cases hd : d = c
    · simp only [hd, if_true] at h ⊢
      simp at h
      subst h
      simp only [countList]
      omega
    · simp only [hd, if_false] at h ⊢
      simp only [countList]
      have := ih h
      omega

theorem countList_append {cs : List (Char × TrieNode)} {c : Char} {t : TrieNode} :
    countList (cs ++ [(c, t)]) = countList cs + nodeCount t := by
  induction cs with
  | nil => simp [countList]
  | cons x rest ih =>
    obtain ⟨d, v⟩ := x
    show countList ((d, v) :: (rest ++ [(c, t)])) = _
    simp only [countList, ih]
    omega

theorem termList_setChild {c : Char} {cs : List (Char × TrieNode)} {u t : TrieNode}
    (h : findChild c cs = some u) :
    termList (setChild c t cs) + termCount u = termList cs + termCount t := by
  induction cs with
  | nil => simp [findChild] at h
  | cons x rest ih =>
    obtain ⟨d, v⟩ := x
    simp only [findChild, setChild] at *
    by_cases hd : d = c
    · simp only [hd, if_true] at h ⊢
      simp at h
      subst h
      simp only [termList]
      omega
    · simp only [hd, if_false] at h ⊢
      simp only [termList]
      have := ih h
      omega

theorem termList_delChild {c : Char} {cs : List (Char × TrieNode)} {u : TrieNode}
    (h : findChild c cs = some u) :
    termList (delChild c cs) + termCount u = termList cs := by
  induction cs with
  | nil => simp [findChild] at h
  | cons x rest ih =>
    obtain ⟨d, v⟩ := x
    simp only [findChild, delChild] at *
    by_cases hd : d = c
    · simp only [hd, if_true] at h ⊢
      simp at h
      subst h
      simp only [termList]
      omega
    · simp only [hd, if_false] at h ⊢
      simp only [termList]
      have := ih h
      omega

theorem termList_append {cs : List (Char × TrieNode)} {c : Char} {t : TrieNode} :
    termList (cs ++ [(c, t)]) = termList cs + termCount t := by
  induction cs with
  | nil => simp [termList]
  | cons x rest ih =>
    obtain ⟨d, v⟩ := x
    show termList ((d, v) :: (rest ++ [(c, t)])) = _
    simp only [termList, ih]
    omega

theorem goodList_setChild {c : Char} {cs : List (Char × TrieNode)} {t : TrieNode}
    (hg : goodList cs = true) (ht : goodKeys t = true) :
    goodList (setChild c t cs) = true := by
  induction cs with
  | nil => simp [setChild, goodList]
  | cons x rest ih =>
    obtain ⟨d, v⟩ := x
    simp only [goodList, Bool.and_eq_true] at hg
    simp only [setChild]
    by_cases hd : d = c
    · subst hd
      rw [if_pos rfl]
      simp only [goodList, Bool.and_eq_true]
      exact ⟨⟨hg.1.1, ht⟩, hg.2⟩
    · simp only [hd, if_false, goodList, Bool.and_eq_true]
      refine ⟨⟨?_, hg.1.2⟩, ih hg.2⟩
      rw [findChild_setChild_ne hd]
      exact hg.1.1

theorem goodList_delChild {c : Char} {cs : List (Char × TrieNode)}
    (hg : goodList cs = true) : goodList (delChild c cs) = true := by
  induction cs with
  | nil => simp [delChild, goodList]
  | cons x rest ih =>
    obtain ⟨d, v⟩ := x
    simp only [goodList, Bool.and_eq_true] at hg
    simp only [delChild]
    by_cases hd : d = c
    · simp only [hd, if_true]
      exact hg.2
    · simp only [hd, if_false, goodList, Bool.and_eq_true]
      refine ⟨⟨?_, hg.1.2⟩, ih hg.2⟩
      rw [findChild_delChild_ne hd]
      exact hg.1.1

theorem goodList_append {c : Char} {cs : List (Char × TrieNode)} {t : TrieNode}
    (hg : goodList cs = true) (hn : findChild c cs = none) (ht : goodKeys t = true) :
    goodList (cs ++ [(c, t)]) = true := by
  induction cs with
  | nil => simp [goodList, findChild, ht]
  | cons x rest ih =>
    obtain ⟨d, v⟩ := x
    simp only [goodList, Bool.and_eq_true] at hg
    simp only [findChild] at hn
    by_cases hd : d = c
    · simp [hd] at hn
    · simp only [hd, if_false] at hn
      show goodList ((d, v) :: (rest ++ [(c, t)])) = true
      simp only [goodList, Bool.and_eq_true]
      refine ⟨⟨?_, hg.1.2⟩, ih hg.2 hn⟩
      rw [findChild_append_ne hd]
      exact hg.1.1

theorem liveList_setChild {c : Char} {cs : List (Char × TrieNode)} {t : TrieNode}
    (hl : liveList cs = true) (ht : liveNode t = true) :
    liveList (setChild c t cs) = true := by
  induction cs with
  | nil => simp [setChild, liveList]
  | cons x rest ih =>
    obtain ⟨d, v⟩ := x
    simp only [liveList, Bool.and_eq_true] at hl
    simp only [setChild]
    by_cases hd : d = c
    · simp only [hd, if_true, liveList, Bool.and_eq_true]
      exact ⟨ht, hl.2⟩
    · simp only [hd, if_false, liveList, Bool.and_eq_true]
      exact ⟨hl.1, ih hl.2⟩

theorem liveList_delChild {c : Char} {cs : List (Char × TrieNode)}
    (hl : liveList cs = true) : liveList (delChild c cs) = true := by
  induction cs with
  | nil => simp [delChild, liveList]
  | cons x rest ih =>
    obtain ⟨d, v⟩ := x
    simp only [liveList, Bool.and_eq_true] at hl
    simp only [delChild]
    by_cases hd : d = c
    · simp only [hd, if_true]
      exact hl.2
    · simp only [hd, if_false, liveList, Bool.and_eq_true]
      exact ⟨hl.1, ih hl.2⟩

theorem liveList_append {c : Char} {cs : List (Char × TrieNode)} {t : TrieNode}
    (hl : liveList cs = true) (ht : liveNode t = true) :
    liveList (cs ++ [(c, t)]) = true := by
  induction cs with
  | nil => simp [liveList, ht]
  | cons x rest ih =>
    obtain ⟨d, v⟩ := x
    simp only [liveList, Bool.and_eq_true] at hl
    show liveList ((d, v) :: (rest ++ [(c, t)])) = true
    simp only [liveList, Bool.and_eq_true]
    exact ⟨hl.1, ih hl.2⟩

/-! ### The stable insertion sort -/

theorem insOrd_perm (le : α → α → Bool) (x : α) (l : List α) :
    (insOrd le x l).Perm (x :: l) := by
  induction l with
  | nil => exact List.Perm.refl _
  | cons y ys ih =>
    simp only [insOrd]
    by_cases h : (le y x && !(le x y)) = true
    · simp only [h, if_true]
      exact (List.Perm.cons y ih).trans (List.Perm.swap x y ys)
    · simp only [h, if_false]
      exact List.Perm.refl _

theorem insSort_perm (le : α → α → Bool) (l : List α) : (insSort le l).Perm l := by
  induction l with
  | nil => exact List.Perm.refl _
  | cons x xs ih =>
    simp only [insSort]
    exact (insOrd_perm le x (insSort le xs)).trans (List.Perm.cons x ih)

theorem mem_insSort {le : α → α → Bool} {l : List α} {x : α} :
    x ∈ insSort le l ↔ x ∈ l :=
  (insSort_perm le l).mem_iff

theorem insOrd_pairwise {le : α → α → Bool}
    (htot : ∀ a b, le a b = true ∨ le b a = true)
    (htr : ∀ a b c, le a b = true → le b c = true → le a c = true)
    {l : List α} (x : α) (hl : l.Pairwise (fun a b => le a b = true)) :
    (insOrd le x l).Pairwise (fun a b => le a b = true) := by
  induction l with
  | nil => simp [insOrd]
  | cons y ys ih =>
    simp only [insOrd]
    rcases List.pairwise_cons.1 hl with ⟨hy, hys⟩
    by_cases h : (le y x && !(le x y)) = true
    · simp only [h, if_true]
      simp only [Bool.and_eq_true, Bool.not_eq_true'] at h
      refine List.pairwise_cons.2 ⟨?_, ih hys⟩
      intro z hz
      have hz' : z ∈ x :: ys := (insOrd_perm le x ys).mem_iff.1 hz
      rcases List.mem_cons.1 hz' with hz1 | hz1
      · subst hz1
        exact h.1
      · exact hy z hz1
    · simp only [h, if_false]
      refine List.pairwise_cons.2 ⟨?_, hl⟩
      intro z hz
      have hxy : le x y = true := by
        rcases htot x y with h1 | h1
        · exact h1
        · by_cases h2 : le x y = true
          · exact h2
          · exfalso
            apply h
            simp [h1, h2]
      rcases List.mem_cons.1 hz with hz | hz
      · subst hz
        exact hxy
      · exact htr x y z hxy (hy z hz)

theorem insSort_pairwise {le : α → α → Bool}
    (htot : ∀ a b, le a b = true ∨ le b a = true)
    (htr : ∀ a b c, le a b = true → le b c = true → le a c = true)
    (l : List α) : (insSort le l).Pairwise (fun a b => le a b = true) := by
  induction l with
  | nil => simp [insSort]
  | cons x xs ih =>
    simp only [insSort]
    exact insOrd_pairwise htot htr x ih

/-! ### The lexicographic and candidate orders -/

theorem lexLe_cons_iff {a b : Char} {as bs : List Char} :
    lexLe (a :: as) (b :: bs) = true ↔ a < b ∨ (a = b ∧ lexLe as bs = true) := by
  simp only [lexLe]
  by_cases h1 : a < b
  · simp [h1]
  · simp only [h1, if_false]
    by_cases h2 : b < a
    · simp only [h2, if_true]
      constructor
      · intro h
        simp at h
      · rintro (h | ⟨h, _⟩)
        · exact h.elim
        · exact (lt_irrefl a (h ▸ h2)).elim
    · simp only [h2, if_false]
      have heq : a = b := le_antisymm (not_lt.1 h2) (not_lt.1 h1)
      simp [heq, h1]

theorem lexLt_cons_iff {a b : Char} {as bs : List Char} :
    lexLt (a :: as) (b :: bs) = true ↔ a < b ∨ (a = b ∧ lexLt as bs = true) := by
  simp only [lexLt]
  by_cases h1 : a < b
  · simp [h1]
  · simp only [h1, if_false]
    by_cases h2 : b < a
    · simp only [h2, if_true]
      constructor
      · intro h
        simp at h
      · rintro (h | ⟨h, _⟩)
        · exact h.elim
        · exact (lt_irrefl a (h ▸ h2)).elim
    · simp only [h2, if_false]
      have heq : a = b := le_antisymm (not_lt.1 h2) (not_lt.1 h1)
      simp [heq, h1]

theorem lexLe_total : ∀ a b : List Char, lexLe a b = true ∨ lexLe b a = true := by
  intro a
  induction a with
  | nil => intro b; left; rfl
  | cons x as ih =>
    intro b
    cases b with
    | nil => right; rfl
    | cons y bs =>
      rcases lt_trichotomy x y with h | h | h
      · left
        exact lexLe_cons_iff.2 (Or.inl h)
      · rcases ih bs with h2 | h2
        · left
          exact lexLe_cons_iff.2 (Or.inr ⟨h, h2⟩)
        · right
          exact lexLe_cons_iff.2 (Or.inr ⟨h.symm, h2⟩)
      · right
        exact lexLe_cons_iff.2 (Or.inl h)

theorem lexLe_trans : ∀ a b c : List Char,
    lexLe a b = true → lexLe b c = true → lexLe a c = true := by
  intro a
  induction a with
  | nil => intro b c _ _; rfl
  | cons x as ih =>
    intro b c hab hbc
    cases b with
    | nil => simp [lexLe] at hab
    | cons y bs =>
      cases c with
      | nil => simp [lexLe] at hbc
      | cons z cs =>
        rcases lexLe_cons_iff.1 hab with h1 | ⟨h1, h1'⟩ <;>
          rcases lexLe_cons_iff.1 hbc with h2 | ⟨h2, h2'⟩
        · exact lexLe_cons_iff.2 (Or.inl (lt_trans h1 h2))
        · exact lexLe_cons_iff.2 (Or.inl (h2 ▸ h1))
        · exact lexLe_cons_iff.2 (Or.inl (h1 ▸ h2))
        · exact lexLe_cons_iff.2 (Or.inr ⟨h1.trans h2, ih bs cs h1' h2'⟩)

theorem lexLe_antisymm : ∀ a b : List Char,
    lexLe a b = true → lexLe b a = true → a = b := by
  intro a
  induction a with
  | nil =>
    intro b _ hba
    cases b with
    | nil => rfl
    | cons y bs => simp [lexLe] at hba
  | cons x as ih =>
    intro b hab hba
    cases b with
    | nil => simp [lexLe] at hab
    | cons y bs =>
      rcases lexLe_cons_iff.1 hab with h1 | ⟨h1, h1'⟩ <;>
        rcases lexLe_cons_iff.1 hba with h2 | ⟨h2, h2'⟩
      · exact absurd (lt_trans h1 h2) (lt_irrefl x)
      · exact absurd (h2 ▸ h1) (lt_irrefl x)
      · exact absurd (h1 ▸ h2) (lt_irrefl x)
      · rw [h1, ih bs h1' h2']

theorem lexLt_of_lexLe_ne : ∀ a b : List Char,
    lexLe a b = true → a ≠ b → lexLt a b = true := by
  intro a
  induction a with
  | nil =>
    intro b _ hne
    cases b with
    | nil => exact absurd rfl hne
    | cons y bs => rfl
  | cons x as ih =>
    intro b hab hne
    cases b with
    | nil => simp [lexLe] at hab
    | cons y bs =>
      rcases lexLe_cons_iff.1 hab with h1 | ⟨h1, h1'⟩
      · exact lexLt_cons_iff.2 (Or.inl h1)
      · subst h1
        have : as ≠ bs := fun h => hne (by rw [h])
        exact lexLt_cons_iff.2 (Or.inr ⟨rfl, ih bs h1' this⟩)

theorem candLe_total : ∀ a b : ℚ × List Char, candLe a b = true ∨ candLe b a = true := by
  intro a b
  unfold candLe
  rcases lt_trichotomy a.1 b.1 with h | h | h
  · right
    simp [h]
  · simp only [h, lt_irrefl, if_false]
    exact lexLe_total a.2 b.2
  · left
    simp [h]

theorem candLe_trans : ∀ a b c : ℚ × List Char,
    candLe a b = true → candLe b c = true → candLe a c = true := by
  intro a b c hab hbc
  unfold candLe at *
  by_cases h1 : b.1 < a.1 <;> by_cases h2 : c.1 < b.1
  · simp [lt_trans h2 h1]
  · simp only [h2, if_false] at hbc
    by_cases h3 : b.1 < c.1
    · simp [h3] at hbc
    · have : c.1 = b.1 := le_antisymm (not_lt.1 h3) (not_lt.1 h2)
      simp [this ▸ h1]
  · simp only [h1, if_false] at hab
    by_cases h3 : a.1 < b.1
    · simp [h3] at hab
    · have : a.1 = b.1 := le_antisymm (not_lt.1 h1) (not_lt.1 h3)
      simp [this ▸ h2]
  · simp only [h1, if_false] at hab
    by_cases h3 : a.1 < b.1
    · simp [h3] at hab
    · simp only [h3, if_false] at hab
      simp only [h2, if_false] at hbc
      by_cases h4 : b.1 < c.1
      · simp [h4] at hbc
      · have hac : ¬ c.1 < a.1 := by
          have e1 : a.1 = b.1 := le_antisymm (not_lt.1 h1) (not_lt.1 h3)
          have e2 : b.1 = c.1 := le_antisymm (not_lt.1 h2) (not_lt.1 h4)
          rw [e1, e2]
          exact lt_irrefl _
        have hac' : ¬ a.1 < c.1 := by
          have e1 : a.1 = b.1 := le_antisymm (not_lt.1 h1) (not_lt.1 h3)
          have e2 : b.1 = c.1 := le_antisymm (not_lt.1 h2) (not_lt.1 h4)
          rw [e1, e2]
          exact lt_irrefl _
        simp only [h4, if_false] at hbc
        simp only [hac, hac', if_false]
        exact lexLe_trans _ _ _ hab hbc

theorem childLe_total : ∀ a b : Char × TrieNode, childLe a b = true ∨ childLe b a = true := by
  intro a b
  unfold childLe
  rcases le_total a.1 b.1 with h | h
  · left
    simpa using h
  · right
    simpa using h

theorem childLe_trans : ∀ a b c : Char × TrieNode,
    childLe a b = true → childLe b c = true → childLe a c = true := by
  intro a b c hab hbc
  unfold childLe at *
  simp only [decide_eq_true_eq] at *
  exact le_trans hab hbc

/-! ### Paths, membership and weights -/

theorem begins_iff {p s : List Char} : begins p s = true ↔ ∃ u, s = p ++ u := by
  induction p generalizing s with
  | nil =>
    constructor
    · intro _
      exact ⟨s, rfl⟩
    · intro _
      rfl
  | cons a as ih =>
    cases s with
    | nil =>
      simp only [begins]
      constructor
      · intro h
        exact absurd h (by simp)
      · rintro ⟨u, hu⟩
        simp at hu
    | cons b bs =>
      simp only [begins, Bool.and_eq_true, beq_iff_eq]
      constructor
      · rintro ⟨hab, h⟩
        rcases ih.1 h with ⟨u, hu⟩
        exact ⟨u, by rw [hab, hu, List.cons_append]⟩
      · rintro ⟨u, hu⟩
        simp only [List.cons_append, List.cons.injEq] at hu
        exact ⟨hu.1.symm, ih.2 ⟨u, hu.2⟩⟩

theorem lookupWord_append {p : List Char} {n m : TrieNode}
    (h : findNode n p = some m) : ∀ u, lookupWord n (p ++ u) = lookupWord m u := by
  induction p generalizing n with
  | nil =>
    simp only [findNode] at h
    intro u
    cases h
    rfl
  | cons c rest ih =>
    intro u
    simp only [findNode] at h
    cases hf : findChild c n.children with
    | none => simp [hf] at h
    | some child =>
      simp only [hf] at h
      show lookupWord n (c :: (rest ++ u)) = _
      simp only [lookupWord, hf]
      exact ih h u

theorem lookupWord_none_of_findNode {p : List Char} {n : TrieNode}
    (h : findNode n p = none) : ∀ u, lookupWord n (p ++ u) = none := by
  induction p generalizing n with
  | nil => simp [findNode] at h
  | cons c rest ih =>
    intro u
    simp only [findNode] at h
    cases hf : findChild c n.children with
    | none =>
      show lookupWord n (c :: (rest ++ u)) = none
      simp [lookupWord, hf]
    | some child =>
      simp only [hf] at h
      show lookupWord n (c :: (rest ++ u)) = none
      simp only [lookupWord, hf]
      exact ih h u

theorem containsAux_lookupWord (n : TrieNode) (w : List Char) :
    containsAux n w = (lookupWord n w).isSome := by
  induction w generalizing n with
  | nil =>
    simp only [containsAux, lookupWord]
    by_cases h : n.is_word <;> simp [h]
  | cons c rest ih =>
    simp only [containsAux, lookupWord]
    cases hf : findChild c n.children with
    | none => rfl
    | some child => exact ih child

theorem findNode_goodKeys {p : List Char} {n m : TrieNode}
    (hg : goodKeys n = true) (h : findNode n p = some m) : goodKeys m = true := by
  induction p generalizing n with
  | nil =>
    simp only [findNode] at h
    cases h
    exact hg
  | cons c rest ih =>
    simp only [findNode] at h
    cases hf : findChild c n.children with
    | none => simp [hf] at h
    | some child =>
      simp only [hf] at h
      exact ih (goodKeys_of_findChild (goodKeys_eq n ▸ hg) hf) h

theorem findNode_isSome_of_lookup {s p : List Char} {n : TrieNode}
    (hc : (lookupWord n s).isSome) (hb : begins p s = true) :
    (findNode n p).isSome := by
  rcases begins_iff.1 hb with ⟨u, hu⟩
  subst hu
  cases h : findNode n p with
  | some m => rfl
  | none =>
    rw [lookupWord_none_of_findNode h u] at hc
    simp at hc

theorem mk_children {cs : List (Char × TrieNode)} {w : Bool} {q : ℚ} :
    (TrieNode.mk cs w q).children = cs := rfl

theorem mk_is_word {cs : List (Char × TrieNode)} {w : Bool} {q : ℚ} :
    (TrieNode.mk cs w q).is_word = w := rfl

theorem mk_freq {cs : List (Char × TrieNode)} {w : Bool} {q : ℚ} :
    (TrieNode.mk cs w q).freq = q := rfl

/-! ### Behaviour of insert -/

theorem insert_weight (w : List Char) (n : TrieNode) (f : ℚ) :
    lookupWord (insertAux n w f).1 w = some f := by
  induction w generalizing n with
  | nil =>
    cases n with
    | mk cs w0 q =>
      simp [insertAux, lookupWord, mk_is_word, mk_freq]
  | cons c rest ih =>
    cases n with
    | mk cs w0 q =>
      simp only [insertAux]
      cases hf : findChild c cs with
      | some child =>
        simp only [hf, lookupWord, mk_children, findChild_setChild_self hf]
        exact ih child
      | none =>
        simp only [hf, lookupWord, mk_children, findChild_append_none hf]
        exact ih _

theorem insert_contains (w : List Char) (n : TrieNode) (f : ℚ) :
    containsAux (insertAux n w f).1 w = true := by
  rw [containsAux_lookupWord, insert_weight]
  rfl

theorem containsAux_dead (rest : List Char) :
    containsAux (TrieNode.mk [] false 0) rest = false := by
  cases rest <;> simp [containsAux, findChild, mk_is_word, mk_children]

theorem insert_added (w : List Char) (n : TrieNode) (f : ℚ) :
    (insertAux n w f).2.2 = !containsAux n w := by
  induction w generalizing n with
  | nil =>
    cases n with
    | mk cs w0 q => simp [insertAux, containsAux, mk_is_word]
  | cons c rest ih =>
    cases n with
    | mk cs w0 q =>
      simp only [insertAux, containsAux, mk_children]
      cases hf : findChild c cs with
      | some child =>
        simp only [hf]
        exact ih child
      | none =>
        simp only [hf]
        rw [ih, containsAux_dead]

theorem insert_nodeCount (w : List Char) (n : TrieNode) (f : ℚ) :
    nodeCount (insertAux n w f).1 = nodeCount n + (insertAux n w f).2.1 := by
  induction w generalizing n with
  | nil =>
    cases n with
    | mk cs w0 q => simp [insertAux, nodeCount]
  | cons c rest ih =>
    cases n with
    | mk cs w0 q =>
      simp only [insertAux]
      cases hf : findChild c cs with
      | some child =>
        simp only [hf, nodeCount]
        have h1 := countList_setChild (t := (insertAux child rest f).1) hf
        have h2 := ih child
        omega
      | none =>
        simp only [hf, nodeCount, countList_append]
        have h2 := ih (TrieNode.mk [] false 0)
        have h3 : nodeCount (TrieNode.mk [] false 0) = 1 := rfl
        omega

theorem insert_termCount (w : List Char) (n : TrieNode) (f : ℚ) :
    termCount (insertAux n w f).1 =
      termCount n + (if (insertAux n w f).2.2 then 1 else 0) := by
  induction w generalizing n with
  | nil =>
    cases n with
    | mk cs w0 q =>
      cases w0 <;> (simp [insertAux, termCount]; try omega)
  | cons c rest ih =>
    cases n with
    | mk cs w0 q =>
      cases hf : findChild c cs with
      | some child =>
        simp only [insertAux, hf, termCount]
        have h1 := termList_setChild (t := (insertAux child rest f).1) hf
        have h2 := ih child
        omega
      | none =>
        simp only [insertAux, hf, termCount, termList_append]
        have h2 := ih (TrieNode.mk [] false 0)
        have h3 : termCount (TrieNode.mk [] false 0) = 0 := rfl
        omega

theorem insert_goodKeys (w : List Char) (n : TrieNode) (f : ℚ)
    (hg : goodKeys n = true) : goodKeys (insertAux n w f).1 = true := by
  induction w generalizing n with
  | nil =>
    cases n with
    | mk cs w0 q => simpa [insertAux, goodKeys] using hg
  | cons c rest ih =>
    cases n with
    | mk cs w0 q =>
      simp only [goodKeys] at hg
      simp only [insertAux]
      cases hf : findChild c cs with
      | some child =>
        simp only [hf, goodKeys]
        exact goodList_setChild hg (ih child (goodKeys_of_findChild hg hf))
      | none =>
        simp only [hf, goodKeys]
        exact goodList_append hg hf (ih (TrieNode.mk [] false 0) rfl)

theorem insert_live (w : List Char) (n : TrieNode) (f : ℚ)
    (hl : liveList n.children = true) : liveNode (insertAux n w f).1 = true := by
  induction w generalizing n with
  | nil =>
    cases n with
    | mk cs w0 q =>
      simp only [mk_children] at hl
      simp [insertAux, liveNode, hl]
  | cons c rest ih =>
    cases n with
    | mk cs w0 q =>
      simp only [mk_children] at hl
      simp only [insertAux]
      cases hf : findChild c cs with
      | some child =>
        simp only [hf, liveNode]
        have hchild : liveNode child = true := liveNode_of_findChild hl hf
        have hcl : liveList child.children = true := by
          cases child with
          | mk cs' w' q' =>
            simp only [liveNode, Bool.and_eq_true] at hchild
            exact hchild.2
        have := ih child hcl
        have hset := liveList_setChild (c := c) hl this
        have hne : setChild c (insertAux child rest f).1 cs ≠ [] := by
          cases cs with
          | nil => simp [findChild] at hf
          | cons y ys =>
            cases y with
            | mk d v =>
              simp only [setChild]
              by_cases hd : d = c <;> simp [hd]
        simp only [Bool.and_eq_true, Bool.or_eq_true]
        refine ⟨Or.inr ?_, hset⟩
        simpa [List.isEmpty_iff] using hne
      | none =>
        simp only [hf, liveNode]
        have := ih (TrieNode.mk [] false 0) rfl
        have happ := liveList_append (c := c) hl this
        simp only [Bool.and_eq_true, Bool.or_eq_true]
        refine ⟨Or.inr ?_, happ⟩
        simp [List.isEmpty_iff]

/-! ### Behaviour of remove -/

theorem setChild_ne_nil {c : Char} {t : TrieNode} {cs : List (Char × TrieNode)}
    (h : cs ≠ []) : setChild c t cs ≠ [] := by
  cases cs with
  | nil => exact absurd rfl h
  | cons y ys =>
    cases y with
    | mk d v =>
      simp only [setChild]
      by_cases hd : d = c <;> simp [hd]

theorem findChild_ne_nil {c : Char} {cs : List (Char × TrieNode)} {t : TrieNode}
    (h : findChild c cs = some t) : cs ≠ [] := by
  cases cs with
  | nil => simp [findChild] at h
  | cons y ys => simp

theorem lookupWord_dead {n : TrieNode} (hc : n.children = []) (hw : n.is_word = false)
    (u : List Char) : lookupWord n u = none := by
  cases u with
  | nil => simp [lookupWord, hw]
  | cons d rest => simp [lookupWord, hc, findChild]

theorem removeAux_sd {n : TrieNode} {w : List Char}
    (h : (removeAux n w).2.1 = true) :
    (removeAux n w).1.children = [] ∧ (removeAux n w).1.is_word = false := by
  cases w with
  | nil =>
    cases n with
    | mk cs w0 q =>
      cases w0 with
      | true =>
        simp only [removeAux, if_true] at h ⊢
        simp only [List.isEmpty_iff] at h
        simp [h, mk_children, mk_is_word]
      | false =>
        simp [removeAux] at h
  | cons c rest =>
    cases n with
    | mk cs w0 q =>
      cases hf : findChild c cs with
      | none => simp [removeAux, hf] at h
      | some child =>
        cases hsd : (removeAux child rest).2.1 with
        | true =>
          simp only [removeAux, hf, hsd, if_true] at h ⊢
          simp only [Bool.and_eq_true, List.isEmpty_iff, Bool.not_eq_true'] at h
          simp [h.1, h.2, mk_children, mk_is_word]
        | false =>
          simp [removeAux, hf, hsd] at h

theorem remove_nodeCount (w : List Char) (n : TrieNode) :
    nodeCount n = nodeCount (removeAux n w).1 + (removeAux n w).2.2.2 := by
  induction w generalizing n with
  | nil =>
    cases n with
    | mk cs w0 q => cases w0 <;> simp [removeAux, nodeCount]
  | cons c rest ih =>
    cases n with
    | mk cs w0 q =>
      cases hf : findChild c cs with
      | none => simp [removeAux, hf]
      | some child =>
        cases hsd : (removeAux child rest).2.1 with
        | true =>
          have hdead := removeAux_sd hsd
          have hone : nodeCount (removeAux child rest).1 = 1 := by
            rw [nodeCount_eq, hdead.1]
            rfl
          have hdel := countList_delChild hf
          have hch := ih child
          simp only [removeAux, hf, hsd, if_true, nodeCount]
          omega
        | false =>
          have hset := countList_setChild (t := (removeAux child rest).1) hf
          have hch := ih child
          simp only [removeAux, hf, hsd, Bool.false_eq_true, if_false, nodeCount]
          omega

theorem remove_termCount (w : List Char) (n : TrieNode) :
    termCount n = termCount (removeAux n w).1 + (removeAux n w).2.2.1 := by
  induction w generalizing n with
  | nil =>
    cases n with
    | mk cs w0 q => cases w0 <;> (simp [removeAux, termCount]; try omega)
  | cons c rest ih =>
    cases n with
    | mk cs w0 q =>
      cases hf : findChild c cs with
      | none => simp [removeAux, hf]
      | some child =>
        cases hsd : (removeAux child rest).2.1 with
        | true =>
          have hdead := removeAux_sd hsd
          have hzero : termCount (removeAux child rest).1 = 0 := by
            rw [termCount_eq, hdead.1, hdead.2]
            rfl
          have hdel := termList_delChild hf
          have hch := ih child
          simp only [removeAux, hf, hsd, if_true, termCount]
          omega
        | false =>
          have hset := termList_setChild (t := (removeAux child rest).1) hf
          have hch := ih child
          simp only [removeAux, hf, hsd, Bool.false_eq_true, if_false, termCount]
          omega

theorem remove_noop (w : List Char) (n : TrieNode)
    (h : containsAux n w = false) : removeAux n w = (n, false, 0, 0) := by
  induction w generalizing n with
  | nil =>
    cases n with
    | mk cs w0 q =>
      simp only [containsAux, mk_is_word] at h
      simp [removeAux, h]
  | cons c rest ih =>
    cases n with
    | mk cs w0 q =>
      cases hf : findChild c cs with
      | none => simp [removeAux, hf]
      | some child =>
        have hch : containsAux child rest = false := by
          simpa [containsAux, mk_children, hf] using h
        have := ih child hch
        simp only [removeAux, hf, this]
        simp [setChild_self hf]

theorem remove_wr (w : List Char) (n : TrieNode) :
    (removeAux n w).2.2.1 = if containsAux n w then 1 else 0 := by
  induction w generalizing n with
  | nil =>
    cases n with
    | mk cs w0 q =>
      cases w0 <;> simp [removeAux, containsAux, mk_is_word]
  | cons c rest ih =>
    cases n with
    | mk cs w0 q =>
      cases hf : findChild c cs with
      | none => simp [removeAux, containsAux, mk_children, hf]
      | some child =>
        have hcc : containsAux (TrieNode.mk cs w0 q) (c :: rest) = containsAux child rest := by
          simp [containsAux, mk_children, hf]
        rw [hcc]
        cases hsd : (removeAux child rest).2.1 with
        | true =>
          simp only [removeAux, hf, hsd, if_true]
          exact ih child
        | false =>
          simp only [removeAux, hf, hsd, Bool.false_eq_true, if_false]
          exact ih child

theorem remove_self (w : List Char) (n : TrieNode) (hg : goodKeys n = true) :
    containsAux (removeAux n w).1 w = false := by
  induction w generalizing n with
  | nil =>
    cases n with
    | mk cs w0 q =>
      cases w0 <;> simp [removeAux, containsAux, mk_is_word]
  | cons c rest ih =>
    cases n with
    | mk cs w0 q =>
      simp only [goodKeys] at hg
      cases hf : findChild c cs with
      | none => simp [removeAux, hf, containsAux, mk_children]
      | some child =>
        cases hsd : (removeAux child rest).2.1 with
        | true =>
          simp only [removeAux, hf, hsd, if_true, containsAux, mk_children]
          rw [findChild_delChild_self hg]
        | false =>
          simp only [removeAux, hf, hsd, Bool.false_eq_true, if_false, containsAux,
            mk_children]
          rw [findChild_setChild_self hf]
          exact ih child (goodKeys_of_findChild hg hf)

theorem remove_frame (w : List Char) :
    ∀ (n : TrieNode) (w' : List Char), goodKeys n = true → w' ≠ w →
      lookupWord (removeAux n w).1 w' = lookupWord n w' := by
  induction w with
  | nil =>
    intro n w' _ hne
    cases n with
    | mk cs w0 q =>
      cases w' with
      | nil => exact absurd rfl hne
      | cons d rest' =>
        cases w0 <;> simp [removeAux, lookupWord, mk_children]
  | cons c rest ih =>
    intro n w' hg hne
    cases n with
    | mk cs w0 q =>
      simp only [goodKeys] at hg
      cases hf : findChild c cs with
      | none => simp [removeAux, hf]
      | some child =>
        have hgch : goodKeys child = true := goodKeys_of_findChild hg hf
        cases w' with
        | nil =>
          cases hsd : (removeAux child rest).2.1 with
          | true => simp [removeAux, hf, hsd, lookupWord, mk_is_word, mk_freq]
          | false => simp [removeAux, hf, hsd, lookupWord, mk_is_word, mk_freq]
        | cons d rest' =>
          by_cases hd : d = c
          · subst hd
            have hrr : rest' ≠ rest := by
              intro h
              exact hne (by rw [h])
            cases hsd : (removeAux child rest).2.1 with
            | true =>
              have hdead := removeAux_sd hsd
              have h1 : lookupWord (removeAux child rest).1 rest' = lookupWord child rest' :=
                ih child rest' hgch hrr
              have h2 : lookupWord child rest' = none := by
                rw [← h1, lookupWord_dead hdead.1 hdead.2]
              simp only [removeAux, hf, hsd, if_true, lookupWord, mk_children]
              simp [findChild_delChild_self hg, hf, h2]
            | false =>
              have h1 : lookupWord (removeAux child rest).1 rest' = lookupWord child rest' :=
                ih child rest' hgch hrr
              simp only [removeAux, hf, hsd, Bool.false_eq_true, if_false, lookupWord,
                mk_children]
              simp [findChild_setChild_self hf, hf, h1]
          · cases hsd : (removeAux child rest).2.1 with
            | true =>
              simp only [removeAux, hf, hsd, if_true, lookupWord, mk_children]
              rw [findChild_delChild_ne hd]
            | false =>
              simp only [removeAux, hf, hsd, Bool.false_eq_true, if_false, lookupWord,
                mk_children]
              rw [findChild_setChild_ne hd]

theorem remove_goodKeys (w : List Char) (n : TrieNode) (hg : goodKeys n = true) :
    goodKeys (removeAux n w).1 = true := by
  induction w generalizing n with
  | nil =>
    cases n with
    | mk cs w0 q =>
      simp only [goodKeys] at hg
      cases w0 <;> simp [removeAux, goodKeys, hg]
  | cons c rest ih =>
    cases n with
    | mk cs w0 q =>
      simp only [goodKeys] at hg
      cases hf : findChild c cs with
      | none => simpa [removeAux, hf, goodKeys] using hg
      | some child =>
        cases hsd : (removeAux child rest).2.1 with
        | true =>
          simp only [removeAux, hf, hsd, if_true, goodKeys]
          exact goodList_delChild hg
        | false =>
          simp only [removeAux, hf, hsd, Bool.false_eq_true, if_false, goodKeys]
          exact goodList_setChild hg (ih child (goodKeys_of_findChild hg hf))

theorem remove_live (w : List Char) (n : TrieNode) (hl : liveList n.children = true) :
    liveList (removeAux n w).1.children = true ∧
      ((removeAux n w).2.1 = false →
        ((removeAux n w).1.is_word = true ∨ (removeAux n w).1.children ≠ [] ∨
          (n.is_word = false ∧ n.children = []))) := by
  induction w generalizing n with
  | nil =>
    cases n with
    | mk cs w0 q =>
      simp only [mk_children] at hl
      cases w0 with
      | true =>
        simp only [removeAux, if_true, mk_children, mk_is_word]
        refine ⟨hl, ?_⟩
        intro hsd
        cases cs with
        | nil => simp at hsd
        | cons y ys => exact Or.inr (Or.inl (by simp))
      | false =>
        simp only [removeAux, Bool.false_eq_true, if_false, mk_children, mk_is_word]
        refine ⟨hl, ?_⟩
        intro _
        cases cs with
        | nil => simp
        | cons y ys => simp
  | cons c rest ih =>
    cases n with
    | mk cs w0 q =>
      simp only [mk_children] at hl
      cases hf : findChild c cs with
      | none =>
        simp only [removeAux, hf, mk_children, mk_is_word]
        refine ⟨hl, ?_⟩
        intro _
        cases w0 with
        | true => exact Or.inl rfl
        | false =>
          cases cs with
          | nil => simp
          | cons y ys => simp
      | some child =>
        have hlch : liveNode child = true := liveNode_of_findChild hl hf
        have hlcc : liveList child.children = true := by
          cases child with
          | mk cs' w' q' =>
            simp only [liveNode, Bool.and_eq_true] at hlch
            exact hlch.2
        cases hsd : (removeAux child rest).2.1 with
        | true =>
          simp only [removeAux, hf, hsd, if_true, mk_children, mk_is_word]
          refine ⟨liveList_delChild hl, ?_⟩
          intro hcond
          cases w0 with
          | true => exact Or.inl rfl
          | false =>
            refine Or.inr (Or.inl ?_)
            cases hdel : delChild c cs with
            | nil =>
              rw [hdel] at hcond
              simp at hcond
            | cons y ys => simp
        | false =>
          have hih := ih child hlcc
          have hlive2 : liveNode (removeAux child rest).1 = true := by
            rw [liveNode_eq, Bool.and_eq_true, Bool.or_eq_true]
            rcases hih.2 hsd with h1 | h1 | h1
            · exact ⟨Or.inl h1, hih.1⟩
            · refine ⟨Or.inr ?_, hih.1⟩
              simpa [List.isEmpty_iff] using h1
            · exfalso
              have : liveNode child = false := by
                cases child with
                | mk cs' w' q' =>
                  simp only [mk_is_word, mk_children] at h1
                  rw [h1.1, h1.2]
                  rfl
              rw [this] at hlch
              exact Bool.false_ne_true hlch
          simp only [removeAux, hf, hsd, Bool.false_eq_true, if_false, mk_children,
            mk_is_word]
          refine ⟨liveList_setChild hl hlive2, ?_⟩
          intro _
          refine Or.inr (Or.inl ?_)
          exact setChild_ne_nil (findChild_ne_nil hf)

theorem liveList_of_liveNode {n : TrieNode} (h : liveNode n = true) :
    liveList n.children = true := by
  cases n with
  | mk cs w0 q =>
    simp only [liveNode, Bool.and_eq_true] at h
    exact h.2

/-! ### The reachable-state invariant -/

theorem reachable_wf {t : Trie} (h : Trie.Reachable t) : t.WF := by
  induction h with
  | empty => decide
  | insert w f hr ih =>
    obtain ⟨hg, hl, hw, hn⟩ := ih
    rename_i t0
    refine ⟨insert_goodKeys w t0.root f hg, ?_, ?_, ?_⟩
    · exact liveList_of_liveNode (insert_live w t0.root f hl)
    · simp only [Trie.insert]
      have hb := insert_termCount w t0.root f
      cases hadd : (insertAux t0.root w f).2.2
      · rw [hadd] at hb
        simp only [Bool.false_eq_true, if_false] at hb ⊢
        omega
      · rw [hadd] at hb
        simp only [if_true] at hb ⊢
        omega
    · simp only [Trie.insert]
      have := insert_nodeCount w t0.root f
      omega
  | remove w hr ih =>
    obtain ⟨hg, hl, hw, hn⟩ := ih
    rename_i t0
    refine ⟨remove_goodKeys w t0.root hg, ?_, ?_, ?_⟩
    · exact (remove_live w t0.root hl).1
    · simp only [Trie.remove]
      have := remove_termCount w t0.root
      omega
    · simp only [Trie.remove]
      have := remove_nodeCount w t0.root
      omega

/-! ### Insert-then-remove round trip -/

theorem findChild_cons_self {c : Char} {t : TrieNode} {cs : List (Char × TrieNode)} :
    findChild c ((c, t) :: cs) = some t := by
  simp [findChild]

theorem delChild_cons_self {c : Char} {t : TrieNode} {cs : List (Char × TrieNode)} :
    delChild c ((c, t) :: cs) = cs := by
  simp [delChild]

theorem chain_remove (w : List Char) (f : ℚ) :
    (removeAux (insertAux (TrieNode.mk [] false 0) w f).1 w).2 =
      (true, 1, (insertAux (TrieNode.mk [] false 0) w f).2.1) := by
  induction w with
  | nil => rfl
  | cons c rest ih =>
    have hsd : (removeAux (insertAux (TrieNode.mk [] false 0) rest f).1 rest).2.1 = true := by
      rw [ih]
    have hwr : (removeAux (insertAux (TrieNode.mk [] false 0) rest f).1 rest).2.2.1 = 1 := by
      rw [ih]
    have hnd : (removeAux (insertAux (TrieNode.mk [] false 0) rest f).1 rest).2.2.2 =
        (insertAux (TrieNode.mk [] false 0) rest f).2.1 := by
      rw [ih]
    show (removeAux
        (TrieNode.mk [(c, (insertAux (TrieNode.mk [] false 0) rest f).1)] false 0)
        (c :: rest)).2 = _
    simp only [removeAux, findChild_cons_self, hsd, if_true, delChild_cons_self, hwr, hnd]
    rfl

theorem termCount_zero_is_word {n : TrieNode} (h : termCount n = 0) :
    n.is_word = false := by
  cases n with
  | mk cs w0 q =>
    cases w0 with
    | false => rfl
    | true => simp [termCount] at h

theorem insert_remove_nd (w : List Char) (n : TrieNode) (f : ℚ)
    (hl : liveList n.children = true) (hc : containsAux n w = false) :
    (removeAux (insertAux n w f).1 w).2.2.2 = (insertAux n w f).2.1 := by
  induction w generalizing n with
  | nil =>
    cases n with
    | mk cs w0 q =>
      simp only [containsAux, mk_is_word] at hc
      simp [insertAux, removeAux]
  | cons c rest ih =>
    cases n with
    | mk cs w0 q =>
      simp only [mk_children] at hl
      cases hf : findChild c cs with
      | none =>
        have hch := chain_remove rest f
        have hsd : (removeAux (insertAux (TrieNode.mk [] false 0) rest f).1 rest).2.1 = true := by
          rw [hch]
        have hnd : (removeAux (insertAux (TrieNode.mk [] false 0) rest f).1 rest).2.2.2 =
            (insertAux (TrieNode.mk [] false 0) rest f).2.1 := by
          rw [hch]
        simp only [insertAux, hf]
        simp only [removeAux, mk_children, findChild_append_none hf, hsd, if_true, hnd]
      | some child =>
        have hcch : containsAux child rest = false := by
          simpa [containsAux, mk_children, hf] using hc
        have hlch : liveNode child = true := liveNode_of_findChild hl hf
        have hlcc : liveList child.children = true := liveList_of_liveNode hlch
        have hihc := ih child hlcc hcch
        have hsd : (removeAux (insertAux child rest f).1 rest).2.1 = false := by
          cases hsd0 : (removeAux (insertAux child rest f).1 rest).2.1 with
          | false => rfl
          | true =>
            exfalso
            have hdead := removeAux_sd hsd0
            have hone : nodeCount (removeAux (insertAux child rest f).1 rest).1 = 1 := by
              rw [nodeCount_eq, hdead.1]
              rfl
            have hzero : termCount (removeAux (insertAux child rest f).1 rest).1 = 0 := by
              rw [termCount_eq, hdead.1, hdead.2]
              rfl
            have hrn := remove_nodeCount rest (insertAux child rest f).1
            have hin := insert_nodeCount rest child f
            have hrt := remove_termCount rest (insertAux child rest f).1
            have hit := insert_termCount rest child f
            have hwr1 : (removeAux (insertAux child rest f).1 rest).2.2.1 = 1 := by
              rw [remove_wr, insert_contains]
              rfl
            have hadd : (insertAux child rest f).2.2 = true := by
              rw [insert_added, hcch]
              rfl
            rw [hadd] at hit
            simp at hit
            rw [hone, hihc] at hrn
            rw [hzero, hwr1] at hrt
            have hchn : nodeCount child = 1 := by omega
            have hcht : termCount child = 0 := by omega
            have hchc : child.children = [] := by
              rw [nodeCount_eq] at hchn
              exact countList_eq_zero (by omega)
            have hchw : child.is_word = false := termCount_zero_is_word hcht
            have : liveNode child = false := by
              cases child with
              | mk cs' w' q' =>
                simp only [mk_children] at hchc
                simp only [mk_is_word] at hchw
                rw [hchc, hchw]
                rfl
            rw [this] at hlch
            exact Bool.false_ne_true hlch
        simp only [insertAux, hf]
        simp only [removeAux, mk_children, findChild_setChild_self hf, hsd,
          Bool.false_eq_true, if_false]
        exact hihc

/-! ### The subtree scan of complete -/

theorem flatMapCongr {α β : Type _} {l : List α} {f g : α → List β}
    (h : ∀ x ∈ l, f x = g x) : l.flatMap f = l.flatMap g := by
  induction l with
  | nil => rfl
  | cons x xs ih =>
    simp only [List.flatMap_cons]
    rw [h x (List.mem_cons_self x xs), ih (fun y hy => h y (List.mem_cons_of_mem x hy))]

theorem nodeCount_le_countList {cs : List (Char × TrieNode)} {x : Char × TrieNode}
    (h : x ∈ cs) : nodeCount x.2 ≤ countList cs := by
  induction cs with
  | nil => simp at h
  | cons y ys ih =>
    rcases List.mem_cons.1 h with h1 | h1
    · subst h1
      cases x with
      | mk c t => simp only [countList]; omega
    · cases y with
      | mk c t =>
        have := ih h1
        simp only [countList]
        omega

theorem collectF_bound : ∀ (k : Nat) (n : TrieNode) (path : List Char) (fuel : Nat),
    nodeCount n ≤ k → nodeCount n ≤ fuel →
    collectF fuel n path = collectF (nodeCount n) n path := by
  intro k
  induction k with
  | zero =>
    intro n path fuel hk _
    exact absurd hk (by have := nodeCount_pos n; omega)
  | succ k ih =>
    intro n path fuel hk hfuel
    obtain ⟨fuel', rfl⟩ : ∃ fuel', fuel = fuel' + 1 := by
      cases fuel with
      | zero => exact absurd hfuel (by have := nodeCount_pos n; omega)
      | succ m => exact ⟨m, rfl⟩
    have hm : nodeCount n = countList n.children + 1 := by
      rw [nodeCount_eq]
      omega
    rw [hm]
    simp only [collectF]
    congr 1
    apply flatMapCongr
    intro x hx
    have hle : nodeCount x.2 ≤ countList n.children :=
      nodeCount_le_countList (mem_insSort.1 hx)
    have h1 := ih x.2 (path ++ [x.1]) fuel' (by omega) (by omega)
    have h2 := ih x.2 (path ++ [x.1]) (countList n.children) (by omega) hle
    rw [h1, h2]

theorem collect_eq (n : TrieNode) (path : List Char) :
    collect n path = (if n.is_word then [(n.freq, path)] else []) ++
      (insSort childLe n.children).flatMap (fun x => collect x.2 (path ++ [x.1])) := by
  show collectF (nodeCount n) n path = _
  have hm : nodeCount n = countList n.children + 1 := by
    rw [nodeCount_eq]
    omega
  rw [hm]
  simp only [collectF]
  congr 1
  apply flatMapCongr
  intro x hx
  have hle : nodeCount x.2 ≤ countList n.children :=
    nodeCount_le_countList (mem_insSort.1 hx)
  exact collectF_bound (countList n.children) x.2 (path ++ [x.1]) (countList n.children) hle hle

theorem collect_shape : ∀ (k : Nat) (n : TrieNode), nodeCount n ≤ k →
    ∀ (path : List Char) (q : ℚ) (s : List Char),
      (q, s) ∈ collect n path → ∃ u, s = path ++ u := by
  intro k
  induction k with
  | zero =>
    intro n hk
    exact absurd hk (by have := nodeCount_pos n; omega)
  | succ k ih =>
    intro n hk path q s hmem
    rw [collect_eq] at hmem
    rcases List.mem_append.1 hmem with h1 | h1
    · by_cases hw : n.is_word = true
      · rw [hw] at h1
        simp only [if_true, List.mem_singleton, Prod.mk.injEq] at h1
        exact ⟨[], by simp [h1.2.symm]⟩
      · rw [Bool.not_eq_true] at hw
        rw [hw] at h1
        simp at h1
    · rcases List.mem_flatMap.1 h1 with ⟨x, hx, hmx⟩
      have hle : nodeCount x.2 ≤ countList n.children :=
        nodeCount_le_countList (mem_insSort.1 hx)
      have hcnt : countList n.children + 1 = nodeCount n := by
        rw [nodeCount_eq]
        omega
      rcases ih x.2 (by omega) (path ++ [x.1]) q s hmx with ⟨u, hu⟩
      exact ⟨x.1 :: u, by simp [hu]⟩

theorem collect_mem : ∀ (k : Nat) (n : TrieNode), nodeCount n ≤ k → goodKeys n = true →
    ∀ (path : List Char) (q : ℚ) (s : List Char),
      ((q, s) ∈ collect n path ↔ ∃ u, s = path ++ u ∧ lookupWord n u = some q) := by
  intro k
  induction k with
  | zero =>
    intro n hk
    exact absurd hk (by have := nodeCount_pos n; omega)
  | succ k ih =>
    intro n hk hg path q s
    have hcnt : nodeCount n = countList n.children + 1 := by rw [nodeCount_eq]; omega
    rw [collect_eq]
    constructor
    · intro hmem
      rcases List.mem_append.1 hmem with h1 | h1
      · by_cases hw : n.is_word = true
        · rw [hw] at h1
          simp only [if_true, List.mem_singleton, Prod.mk.injEq] at h1
          refine ⟨[], by simp [h1.2.symm], ?_⟩
          simp [lookupWord, hw, h1.1.symm]
        · rw [Bool.not_eq_true] at hw
          rw [hw] at h1
          simp at h1
      · rcases List.mem_flatMap.1 h1 with ⟨x, hx, hmx⟩
        have hxcs : x ∈ n.children := mem_insSort.1 hx
        have hle : nodeCount x.2 ≤ countList n.children := nodeCount_le_countList hxcs
        have hfx : findChild x.1 n.children = some x.2 :=
          findChild_of_mem_good (goodKeys_eq n ▸ hg) (by simpa using hxcs)
        have hgx : goodKeys x.2 = true :=
          goodKeys_of_findChild (goodKeys_eq n ▸ hg) hfx
        rcases (ih x.2 (by omega) hgx (path ++ [x.1]) q s).1 hmx with ⟨u, hsu, hlk⟩
        refine ⟨x.1 :: u, by simp [hsu], ?_⟩
        show (match findChild x.1 n.children with
          | none => none
          | some child => lookupWord child u) = some q
        rw [hfx]
        exact hlk
    · rintro ⟨u, hsu, hlk⟩
      cases u with
      | nil =>
        refine List.mem_append.2 (Or.inl ?_)
        simp only [lookupWord] at hlk
        by_cases hw : n.is_word = true
        · rw [hw] at hlk
          simp only [if_true, Option.some.injEq] at hlk
          rw [hw]
          simp only [List.append_nil] at hsu
          simp [hsu, hlk]
        · rw [Bool.not_eq_true] at hw
          rw [hw] at hlk
          simp at hlk
      | cons c u' =>
        refine List.mem_append.2 (Or.inr ?_)
        have hlk' : (match findChild c n.children with
            | none => none
            | some child => lookupWord child u') = some q := hlk
        cases hfc : findChild c n.children with
        | none =>
          rw [hfc] at hlk'
          simp at hlk'
        | some child =>
          rw [hfc] at hlk'
          have hgc : goodKeys child = true :=
            goodKeys_of_findChild (goodKeys_eq n ▸ hg) hfc
          have hle : nodeCount child ≤ countList n.children :=
            nodeCount_le_countList (x := (c, child)) (mem_of_findChild hfc)
          refine List.mem_flatMap.2 ⟨(c, child), ?_, ?_⟩
          · exact mem_insSort.2 (mem_of_findChild hfc)
          · exact (ih child (by omega) hgc (path ++ [c]) q s).2 ⟨u', by simp [hsu], hlk'⟩

theorem goodList_keys_nodup {cs : List (Char × TrieNode)} (hg : goodList cs = true) :
    (cs.map Prod.fst).Nodup := by
  induction cs with
  | nil => simp
  | cons x rest ih =>
    cases x with
    | mk c t =>
      simp only [goodList, Bool.and_eq_true, Bool.not_eq_true'] at hg
      simp only [List.map_cons, List.nodup_cons]
      refine ⟨?_, ih hg.2⟩
      intro hmem
      rcases List.mem_map.1 hmem with ⟨y, hy, hyc⟩
      have hnone : findChild c rest = none := by
        have := hg.1.1
        cases hfc : findChild c rest with
        | none => rfl
        | some u =>
          rw [hfc] at this
          simp at this
      have : (c, y.2) ∈ rest := by
        have : y = (c, y.2) := by
          cases y
          simp only at hyc
          rw [hyc]
        rw [← this]
        exact hy
      exact findChild_eq_none hnone y.2 this

theorem collect_shape_of_mem {n : TrieNode} {path q s} (h : (q, s) ∈ collect n path) :
    ∃ u, s = path ++ u :=
  collect_shape (nodeCount n) n le_rfl path q s h

theorem branches_nodup (path : List Char) :
    ∀ (xs : List (Char × TrieNode)),
      (∀ x ∈ xs, ((collect x.2 (path ++ [x.1])).map Prod.snd).Nodup) →
      (xs.map Prod.fst).Nodup →
      ((xs.flatMap fun x => collect x.2 (path ++ [x.1])).map Prod.snd).Nodup := by
  intro xs
  induction xs with
  | nil => simp
  | cons x rest ih =>
    intro hcol hkeys
    simp only [List.flatMap_cons, List.map_append]
    rw [List.nodup_append]
    simp only [List.map_cons, List.nodup_cons] at hkeys
    refine ⟨hcol x (List.mem_cons_self x rest),
      ih (fun y hy => hcol y (List.mem_cons_of_mem x hy)) hkeys.2, ?_⟩
    intro s hs1 hs2
    rcases List.mem_map.1 hs1 with ⟨a, ha, has⟩
    have ha' : (a.1, a.2) ∈ collect x.2 (path ++ [x.1]) := by simpa using ha
    rcases collect_shape_of_mem ha' with ⟨u, hu⟩
    rcases List.mem_map.1 hs2 with ⟨b, hb, hbs⟩
    rcases List.mem_flatMap.1 hb with ⟨y, hy, hby⟩
    have hb' : (b.1, b.2) ∈ collect y.2 (path ++ [y.1]) := by simpa using hby
    rcases collect_shape_of_mem hb' with ⟨v, hv⟩
    have hxy : x.1 ≠ y.1 := by
      intro hxy
      exact hkeys.1 (hxy ▸ List.mem_map.2 ⟨y, hy, rfl⟩)
    apply hxy
    have hsv : s = path ++ ([y.1] ++ v) := by
      rw [← hbs, hv, List.append_assoc]
    have hsu : s = path ++ ([x.1] ++ u) := by
      rw [← has, hu, List.append_assoc]
    have := hsu.symm.trans hsv
    have h2 : [x.1] ++ u = [y.1] ++ v := List.append_cancel_left this
    simpa using congrArg (fun l => l.head?) h2

theorem collect_nodup : ∀ (k : Nat) (n : TrieNode), nodeCount n ≤ k → goodKeys n = true →
    ∀ path, ((collect n path).map Prod.snd).Nodup := by
  intro k
  induction k with
  | zero =>
    intro n hk
    exact absurd hk (by have := nodeCount_pos n; omega)
  | succ k ih =>
    intro n hk hg path
    have hcnt : nodeCount n = countList n.children + 1 := by rw [nodeCount_eq]; omega
    rw [collect_eq]
    simp only [List.map_append]
    rw [List.nodup_append]
    refine ⟨?_, ?_, ?_⟩
    · by_cases hw : n.is_word = true <;> simp [hw]
    · apply branches_nodup
      · intro x hx
        have hxcs : x ∈ n.children := mem_insSort.1 hx
        have hle : nodeCount x.2 ≤ countList n.children := nodeCount_le_countList hxcs
        have hfx : findChild x.1 n.children = some x.2 :=
          findChild_of_mem_good (goodKeys_eq n ▸ hg) (by simpa using hxcs)
        have hgx : goodKeys x.2 = true :=
          goodKeys_of_findChild (goodKeys_eq n ▸ hg) hfx
        exact ih x.2 (by omega) hgx (path ++ [x.1])
      · exact (((insSort_perm childLe n.children).map Prod.fst).nodup_iff).2
          (goodList_keys_nodup (goodKeys_eq n ▸ hg))
    · intro s hs1 hs2
      by_cases hw : n.is_word = true
      · rw [hw] at hs1
        simp only [if_true, List.map_cons, List.map_nil, List.mem_singleton] at hs1
        rcases List.mem_map.1 hs2 with ⟨b, hb, hbs⟩
        rcases List.mem_flatMap.1 hb with ⟨y, hy, hby⟩
        have hb' : (b.1, b.2) ∈ collect y.2 (path ++ [y.1]) := by simpa using hby
        rcases collect_shape_of_mem hb' with ⟨v, hv⟩
        rw [hs1] at hbs
        have hPv : path = path ++ [y.1] ++ v := hbs.symm.trans hv
        have := congrArg List.length hPv
        simp only [List.length_append, List.length_cons, List.length_nil] at this
        omega
      · rw [Bool.not_eq_true] at hw
        rw [hw] at hs1
        simp at hs1

/-! ### The ranked candidate list of complete -/

theorem pySlice_nonneg {α : Type _} {k : Int} (hk : 0 ≤ k) (l : List α) :
    pySlice k l = l.take k.toNat := by
  unfold pySlice
  rw [if_pos hk]

theorem candLe_rankLT {t : Trie} {a b : ℚ × List Char}
    (hwa : t.weightOf a.2 = some a.1) (hwb : t.weightOf b.2 = some b.1)
    (hc : candLe a b = true) (hne : a.2 ≠ b.2) : t.rankLT a.2 b.2 := by
  refine ⟨a.1, b.1, hwa, hwb, ?_⟩
  unfold candLe at hc
  by_cases h1 : b.1 < a.1
  · exact Or.inl h1
  · simp only [h1, if_false] at hc
    by_cases h2 : a.1 < b.1
    · simp [h2] at hc
    · simp only [h2, if_false] at hc
      right
      have heq : a.1 = b.1 := le_antisymm (not_lt.1 h1) (not_lt.1 h2)
      exact ⟨heq, lexLt_of_lexLe_ne _ _ hc hne⟩

theorem collect_weight {t : Trie} {p : List Char} {n : TrieNode}
    (hfn : findNode t.root p = some n) (hg : goodKeys n = true)
    {q : ℚ} {s : List Char} (h : (q, s) ∈ collect n p) : t.weightOf s = some q := by
  rcases (collect_mem (nodeCount n) n le_rfl hg p q s).1 h with ⟨u, hsu, hlk⟩
  unfold Trie.weightOf
  rw [hsu, lookupWord_append hfn u]
  exact hlk

theorem complete_spec (t : Trie) (p : List Char) (k : Int)
    (hg : t.goodDict) (hk : 0 ≤ k) :
    ∃ full : List (List Char),
      t.complete p k = full.take k.toNat ∧ full.Nodup ∧
      (∀ s, s ∈ full ↔ (t.contains s = true ∧ begins p s = true)) ∧
      full.Pairwise t.rankLT := by
  have hgr : goodKeys t.root = true := hg
  unfold Trie.complete
  cases hfn : findNode t.root p with
  | none =>
    refine ⟨[], by simp, List.nodup_nil, ?_, List.Pairwise.nil⟩
    intro s
    simp only [List.not_mem_nil, false_iff]
    rintro ⟨hc, hb⟩
    rcases begins_iff.1 hb with ⟨u, rfl⟩
    rw [Trie.contains, containsAux_lookupWord, lookupWord_none_of_findNode hfn u] at hc
    simp at hc
  | some n =>
    have hgn : goodKeys n = true := findNode_goodKeys hgr hfn
    have hnd : ((insSort candLe (collect n p)).map Prod.snd).Nodup :=
      (((insSort_perm candLe (collect n p)).map Prod.snd).nodup_iff).2
        (collect_nodup (nodeCount n) n le_rfl hgn p)
    refine ⟨(insSort candLe (collect n p)).map Prod.snd, ?_, hnd, ?_, ?_⟩
    · show (pySlice k (insSort candLe (collect n p))).map Prod.snd = _
      rw [pySlice_nonneg hk]
      exact List.map_take _ _ _
    · intro s
      constructor
      · intro hs
        rcases List.mem_map.1 hs with ⟨a, ha, has⟩
        have ha' : (a.1, a.2) ∈ collect n p := by simpa using mem_insSort.1 ha
        rcases (collect_mem (nodeCount n) n le_rfl hgn p a.1 a.2).1 ha' with ⟨u, hsu, hlk⟩
        constructor
        · rw [← has, Trie.contains, containsAux_lookupWord, hsu,
            lookupWord_append hfn u, hlk]
          rfl
        · rw [← has, hsu]
          exact begins_iff.2 ⟨u, rfl⟩
      · rintro ⟨hc, hb⟩
        rcases begins_iff.1 hb with ⟨u, rfl⟩
        rw [Trie.contains, containsAux_lookupWord, lookupWord_append hfn u] at hc
        cases hlq : lookupWord n u with
        | none =>
          rw [hlq] at hc
          simp at hc
        | some q =>
          apply List.mem_map.2
          refine ⟨(q, p ++ u), ?_, rfl⟩
          exact mem_insSort.2
            ((collect_mem (nodeCount n) n le_rfl hgn p q (p ++ u)).2 ⟨u, rfl, hlq⟩)
    · have hpw : (insSort candLe (collect n p)).Pairwise (fun a b => candLe a b = true) :=
        insSort_pairwise candLe_total candLe_trans _
      have hnd' : (insSort candLe (collect n p)).Pairwise (fun a b => a.2 ≠ b.2) :=
        List.pairwise_map.1 hnd
      rw [List.pairwise_map]
      refine (hpw.and hnd').imp_of_mem ?_
      intro a b hma hmb hr
      have hwa : t.weightOf a.2 = some a.1 :=
        collect_weight hfn hgn (by simpa using mem_insSort.1 hma)
      have hwb : t.weightOf b.2 = some b.1 :=
        collect_weight hfn hgn (by simpa using mem_insSort.1 hmb)
      exact candLe_rankLT hwa hwb hr.1 hr.2

/-! ### Height -/

theorem heightList_ge {cs : List (Char × TrieNode)} {x : Char × TrieNode}
    (h : x ∈ cs) : getHeight x.2 ≤ heightList cs := by
  induction cs with
  | nil => simp at h
  | cons y ys ih =>
    rcases List.mem_cons.1 h with h1 | h1
    · subst h1
      cases x with
      | mk c t =>
        simp only [heightList]
        exact le_max_left _ _
    · cases y with
      | mk c t =>
        simp only [heightList]
        exact le_trans (ih h1) (le_max_right _ _)

theorem findNode_depth_le : ∀ (p : List Char) (n : TrieNode),
    (findNode n p).isSome → p.length ≤ getHeight n := by
  intro p
  induction p with
  | nil =>
    intro n _
    simp
  | cons c rest ih =>
    intro n hs
    have h0 : findNode n (c :: rest) =
        (match findChild c n.children with
          | none => none
          | some child => findNode child rest) := rfl
    cases hfc : findChild c n.children with
    | none =>
      rw [h0, hfc] at hs
      simp at hs
    | some child =>
      rw [h0, hfc] at hs
      have h1 : rest.length ≤ getHeight child := ih child hs
      have h2 : getHeight child ≤ heightList n.children :=
        heightList_ge (x := (c, child)) (mem_of_findChild hfc)
      have h3 : getHeight n = 1 + heightList n.children := by
        rw [getHeight_eq]
        have : n.children ≠ [] := findChild_ne_nil hfc
        simp [List.isEmpty_iff, this]
      simp only [List.length_cons]
      omega

theorem heightList_attained : ∀ (cs : List (Char × TrieNode)), cs ≠ [] →
    ∃ x ∈ cs, getHeight x.2 = heightList cs := by
  intro cs
  induction cs with
  | nil => intro h; exact absurd rfl h
  | cons y ys ih =>
    intro _
    cases ys with
    | nil =>
      refine ⟨y, List.mem_cons_self y [], ?_⟩
      cases y with
      | mk c t => simp [heightList]
    | cons z zs =>
      rcases ih (by simp) with ⟨x, hx, hxh⟩
      by_cases hcmp : heightList (z :: zs) ≤ getHeight y.2
      · refine ⟨y, List.mem_cons_self y _, ?_⟩
        cases y with
        | mk c t =>
          have hstep : heightList ((c, t) :: z :: zs) =
              max (getHeight t) (heightList (z :: zs)) := rfl
          rw [hstep, max_eq_left hcmp]
      · refine ⟨x, List.mem_cons_of_mem y hx, ?_⟩
        cases y with
        | mk c t =>
          have hstep : heightList ((c, t) :: z :: zs) =
              max (getHeight t) (heightList (z :: zs)) := rfl
          rw [hstep, max_eq_right (le_of_not_le hcmp)]
          exact hxh

theorem height_attained : ∀ (k : Nat) (n : TrieNode), nodeCount n ≤ k →
    goodKeys n = true → ∃ p, (findNode n p).isSome ∧ p.length = getHeight n := by
  intro k
  induction k with
  | zero =>
    intro n hk
    exact absurd hk (by have := nodeCount_pos n; omega)
  | succ k ih =>
    intro n hk hg
    cases hcs : n.children with
    | nil =>
      refine ⟨[], by simp [findNode], ?_⟩
      rw [getHeight_eq, hcs]
      rfl
    | cons y ys =>
      have hne : n.children ≠ [] := by rw [hcs]; simp
      rcases heightList_attained n.children hne with ⟨x, hx, hxh⟩
      have hfx : findChild x.1 n.children = some x.2 :=
        findChild_of_mem_good (goodKeys_eq n ▸ hg) (by simpa using hx)
      have hgx : goodKeys x.2 = true := goodKeys_of_findChild (goodKeys_eq n ▸ hg) hfx
      have hle : nodeCount x.2 ≤ countList n.children := nodeCount_le_countList hx
      have hcnt : nodeCount n = countList n.children + 1 := by rw [nodeCount_eq]; omega
      rcases ih x.2 (by omega) hgx with ⟨p', hp', hl'⟩
      refine ⟨x.1 :: p', ?_, ?_⟩
      · have h0 : findNode n (x.1 :: p') =
            (match findChild x.1 n.children with
              | none => none
              | some child => findNode child p') := rfl
        rw [h0, hfx]
        exact hp'
      · have h3 : getHeight n = 1 + heightList n.children := by
          rw [getHeight_eq]
          simp [List.isEmpty_iff, hne]
        simp only [List.length_cons]
        omega

theorem chain_height (w : List Char) (f : ℚ) :
    getHeight (insertAux (TrieNode.mk [] false 0) w f).1 = w.length := by
  induction w with
  | nil => rfl
  | cons c rest ih =>
    show getHeight (TrieNode.mk
        [(c, (insertAux (TrieNode.mk [] false 0) rest f).1)] false 0) = _
    rw [getHeight_eq]
    simp only [mk_children, List.isEmpty_cons, if_false, heightList, Bool.false_eq_true]
    rw [ih]
    simp [List.length_cons]
    omega

/-! ### The claims -/

/-- Claim C1: the spec says `remove` returns true exactly when the word was
stored.  The code instead returns the pruning flag that the recursion hands
to the root frame: with "cat" and "car" stored, `remove("cat")` removes the
word (membership becomes false and the word counter drops to 1) yet returns
`False`, because the shared "ca" path keeps a child.  This contradicts the
spec's "word existed and was removed ... Returns true". -/
theorem trie_remove_returns_prune_flag :
    ((Trie.empty.insert "cat".toList 1).insert "car".toList 1).contains "cat".toList = true ∧
    (((Trie.empty.insert "cat".toList 1).insert "car".toList 1).remove "cat".toList).2 = false ∧
    ((((Trie.empty.insert "cat".toList 1).insert "car".toList 1).remove
        "cat".toList).1).contains "cat".toList = false ∧
    ((((Trie.empty.insert "cat".toList 1).insert "car".toList 1).remove
        "cat".toList).1).words = 1 := by
  refine ⟨by decide, by decide, by decide, by decide⟩

/-- Claim C2: the spec says `complete(P, k)` is empty for every `k ≤ 0`.
For `k = 0` that holds, but for negative `k` the code slices
`candidates[:k]`, which in Python drops the last `|k|` elements instead of
returning the empty list: with "a" and "b" stored, `complete("", -1)`
returns `["a"]`. -/
theorem trie_complete_negative_k :
    ((Trie.empty.insert ['a'] 1).insert ['b'] 1).complete [] (-1) = [['a']] ∧
    (∀ (t : Trie) (p : List Char), t.complete p 0 = []) := by
  refine ⟨by decide, ?_⟩
  intro t p
  unfold Trie.complete
  cases findNode t.root p with
  | none => rfl
  | some n =>
    show ((insSort candLe (collect n p)).take (Int.toNat 0)).map Prod.snd = []
    simp

/-- Claim C3: for every dict-representable trie state and `k ≥ 0`,
`complete(P, k)` is the `k`-prefix of the ranked candidate list: the list of
exactly the stored words extending `P`, without duplicates, ordered by weight
descending with ties broken by the word ascending; in particular with
cat:5, car:5, can:3 stored, `complete("ca", 2) = ["car", "cat"]`. -/
theorem trie_complete_ranked :
    (∀ (t : Trie) (p : List Char) (k : Int), t.goodDict → 0 ≤ k →
      ∃ full : List (List Char),
        t.complete p k = full.take k.toNat ∧ full.Nodup ∧
        (∀ s, s ∈ full ↔ (t.contains s = true ∧ begins p s = true)) ∧
        full.Pairwise t.rankLT) ∧
    (((Trie.empty.insert "cat".toList 5).insert "car".toList 5).insert
        "can".toList 3).complete "ca".toList 2 = ["car".toList, "cat".toList] :=
  ⟨complete_spec, by decide⟩

theorem trie_complete_ranked_witness :
    (((Trie.empty.insert "cat".toList 5).insert "car".toList 5).insert
        "can".toList 3).goodDict ∧ (0 : Int) ≤ 2 ∧
    (∃ full : List (List Char),
      (((Trie.empty.insert "cat".toList 5).insert "car".toList 5).insert
          "can".toList 3).complete "ca".toList 2 = full.take (2 : Int).toNat ∧
      full.Nodup ∧
      (∀ s, s ∈ full ↔
        ((((Trie.empty.insert "cat".toList 5).insert "car".toList 5).insert
            "can".toList 3).contains s = true ∧ begins "ca".toList s = true)) ∧
      full.Pairwise (((Trie.empty.insert "cat".toList 5).insert "car".toList 5).insert
          "can".toList 3).rankLT) :=
  ⟨by decide, by decide, trie_complete_ranked.1 _ "ca".toList 2 (by decide) (by decide)⟩

/-- Claim C4: after `insert(W, F)` the word is contained, its stored weight
is exactly `F` (overwritten, not accumulated), and the word counter grows by
1 when `W` was absent and by 0 when it was already present. -/
theorem trie_insert_spec :
    ∀ (t : Trie) (w : List Char) (f : ℚ),
      (t.insert w f).contains w = true ∧
      (t.insert w f).weightOf w = some f ∧
      (t.insert w f).words = t.words + (if t.contains w then 0 else 1) := by
  intro t w f
  refine ⟨insert_contains w t.root f, insert_weight w t.root f, ?_⟩
  have hcc : t.contains w = containsAux t.root w := rfl
  rw [hcc]
  simp only [Trie.insert]
  rw [insert_added]
  cases hc : containsAux t.root w <;> simp

/-- Claim C5: in every state reachable from the empty trie by inserts and
removes, no node below the root is a dead leaf (every such node is terminal
or has a child), the node counter equals the number of nodes reachable from
the root, and the word counter equals the number of terminal nodes. -/
theorem trie_reachable_invariants :
    ∀ t : Trie, t.Reachable →
      liveList t.root.children = true ∧
      t.nodes = (nodeCount t.root : Int) ∧
      t.words = (termCount t.root : Int) := by
  intro t hr
  obtain ⟨_, hl, hw, hn⟩ := reachable_wf hr
  exact ⟨hl, hn, hw⟩

theorem trie_reachable_invariants_witness :
    Trie.Reachable ((Trie.empty.insert "ab".toList 2).remove "ab".toList).1 ∧
    (liveList ((Trie.empty.insert "ab".toList 2).remove "ab".toList).1.root.children = true ∧
     ((Trie.empty.insert "ab".toList 2).remove "ab".toList).1.nodes =
       (nodeCount ((Trie.empty.insert "ab".toList 2).remove "ab".toList).1.root : Int) ∧
     ((Trie.empty.insert "ab".toList 2).remove "ab".toList).1.words =
       (termCount ((Trie.empty.insert "ab".toList 2).remove "ab".toList).1.root : Int)) :=
  ⟨Trie.Reachable.remove _ (Trie.Reachable.insert _ _ Trie.Reachable.empty),
   trie_reachable_invariants _
     (Trie.Reachable.remove _ (Trie.Reachable.insert _ _ Trie.Reachable.empty))⟩

/-- Claim C6: removing one word never changes the membership or stored
weight of any other word; in particular after inserting "cat" then "car"
into any dict-representable state and removing "cat", "car" is still
contained, "cat" is not, and the shared "ca" path still exists. -/
theorem trie_remove_frame_spec :
    (∀ (t : Trie) (w w' : List Char), t.goodDict → w' ≠ w →
      ((t.remove w).1.contains w' = t.contains w' ∧
       (t.remove w).1.weightOf w' = t.weightOf w')) ∧
    (∀ t : Trie, t.goodDict →
      ((((t.insert "cat".toList 5).insert "car".toList 5).remove
          "cat".toList).1.contains "car".toList = true ∧
       (((t.insert "cat".toList 5).insert "car".toList 5).remove
          "cat".toList).1.contains "cat".toList = false ∧
       (findNode (((t.insert "cat".toList 5).insert "car".toList 5).remove
          "cat".toList).1.root "ca".toList).isSome = true)) := by
  have hmain : ∀ (t : Trie) (w w' : List Char), t.goodDict → w' ≠ w →
      ((t.remove w).1.contains w' = t.contains w' ∧
       (t.remove w).1.weightOf w' = t.weightOf w') := by
    intro t w w' hg hne
    have hfr := remove_frame w t.root w' hg hne
    constructor
    · show containsAux (removeAux t.root w).1 w' = containsAux t.root w'
      rw [containsAux_lookupWord, containsAux_lookupWord, hfr]
    · exact hfr
  refine ⟨hmain, ?_⟩
  intro t hg
  have hg1 : goodKeys (insertAux t.root "cat".toList 5).1 = true :=
    insert_goodKeys _ _ _ hg
  have hg2 : goodKeys (insertAux (insertAux t.root "cat".toList 5).1
      "car".toList 5).1 = true := insert_goodKeys _ _ _ hg1
  have hcar : (((t.insert "cat".toList 5).insert "car".toList 5).remove
      "cat".toList).1.contains "car".toList = true := by
    have hfr := (hmain ((t.insert "cat".toList 5).insert "car".toList 5)
      "cat".toList "car".toList hg2 (by decide)).1
    rw [hfr]
    exact insert_contains _ _ _
  refine ⟨hcar, remove_self "cat".toList _ hg2, ?_⟩
  have hsome : (lookupWord (((t.insert "cat".toList 5).insert "car".toList 5).remove
      "cat".toList).1.root "car".toList).isSome := by
    rw [← containsAux_lookupWord]
    exact hcar
  exact findNode_isSome_of_lookup hsome (by decide)

theorem trie_remove_frame_spec_witness :
    (Trie.empty.insert ['a', 'b'] 1).goodDict ∧ (['a'] : List Char) ≠ ['a', 'b'] ∧
    (((Trie.empty.insert ['a', 'b'] 1).remove ['a', 'b']).1.contains ['a'] =
        (Trie.empty.insert ['a', 'b'] 1).contains ['a'] ∧
     ((Trie.empty.insert ['a', 'b'] 1).remove ['a', 'b']).1.weightOf ['a'] =
        (Trie.empty.insert ['a', 'b'] 1).weightOf ['a']) :=
  ⟨by decide, by decide,
   trie_remove_frame_spec.1 (Trie.empty.insert ['a', 'b'] 1) ['a', 'b'] ['a']
     (by decide) (by decide)⟩

/-- Claim C7: on a reachable state, inserting an absent word and then
immediately removing it restores both counters of `stats()`. -/
theorem trie_insert_remove_roundtrip :
    ∀ (t : Trie) (w : List Char) (f : ℚ), t.Reachable → t.contains w = false →
      (((t.insert w f).remove w).1.words = t.words ∧
       ((t.insert w f).remove w).1.nodes = t.nodes) := by
  intro t w f hr hc
  have hl : liveList t.root.children = true := (reachable_wf hr).2.1
  have hc' : containsAux t.root w = false := hc
  have hnd := insert_remove_nd w t.root f hl hc'
  have hwr : (removeAux (insertAux t.root w f).1 w).2.2.1 = 1 := by
    rw [remove_wr, insert_contains]
    rfl
  have hadd : (insertAux t.root w f).2.2 = true := by
    rw [insert_added, hc']
    rfl
  constructor
  · simp only [Trie.remove, Trie.insert]
    rw [hwr, hadd]
    simp
  · simp only [Trie.remove, Trie.insert]
    rw [hnd]
    simp

theorem trie_insert_remove_roundtrip_witness :
    Trie.Reachable (Trie.empty.insert ['a'] 1) ∧
    (Trie.empty.insert ['a'] 1).contains ['a', 'b'] = false ∧
    ((((Trie.empty.insert ['a'] 1).insert ['a', 'b'] 2).remove ['a', 'b']).1.words =
        (Trie.empty.insert ['a'] 1).words ∧
     (((Trie.empty.insert ['a'] 1).insert ['a', 'b'] 2).remove ['a', 'b']).1.nodes =
        (Trie.empty.insert ['a'] 1).nodes) :=
  ⟨Trie.Reachable.insert _ _ Trie.Reachable.empty, by decide,
   trie_insert_remove_roundtrip (Trie.empty.insert ['a'] 1) ['a', 'b'] 2
     (Trie.Reachable.insert _ _ Trie.Reachable.empty) (by decide)⟩

/-- Claim C8: removing an absent word returns false and leaves the state
bit-for-bit unchanged; removing the same word twice returns false the
second time; and on reachable states the node counter never drops below 1. -/
theorem trie_remove_absent :
    (∀ (t : Trie) (w : List Char), t.contains w = false → t.remove w = (t, false)) ∧
    (∀ (t : Trie) (w : List Char), t.goodDict → ((t.remove w).1.remove w).2 = false) ∧
    (∀ (t : Trie) (w : List Char), t.Reachable → 1 ≤ ((t.remove w).1).nodes) := by
  have hnoop : ∀ (t : Trie) (w : List Char), t.contains w = false →
      t.remove w = (t, false) := by
    intro t w hc
    have hc' : containsAux t.root w = false := hc
    unfold Trie.remove
    rw [remove_noop w t.root hc']
    simp
  refine ⟨hnoop, ?_, ?_⟩
  · intro t w hg
    have h2 : (t.remove w).1.contains w = false := remove_self w t.root hg
    rw [hnoop _ _ h2]
  · intro t w hr
    have hwf := reachable_wf (Trie.Reachable.remove w hr)
    rw [hwf.2.2.2]
    have := nodeCount_pos ((t.remove w).1).root
    omega

theorem trie_remove_absent_witness :
    Trie.empty.contains ['z'] = false ∧ Trie.empty.remove ['z'] = (Trie.empty, false) :=
  ⟨by decide, trie_remove_absent.1 Trie.empty ['z'] (by decide)⟩

/-- Claim C9: `stats()` reports the height as the maximum number of edges
from the root to any reachable node: every path that exists has length at
most the reported height and some existing path attains it; the empty trie
has height 0; and inserting a single word of length L into the empty trie
yields height exactly L. -/
theorem trie_stats_height :
    (∀ t : Trie, t.goodDict →
      ((∀ p, (findNode t.root p).isSome → p.length ≤ t.stats.2.1) ∧
       (∃ p, (findNode t.root p).isSome ∧ p.length = t.stats.2.1))) ∧
    Trie.empty.stats = (0, 0, 1) ∧
    (∀ (w : List Char) (f : ℚ), ((Trie.empty.insert w f).stats).2.1 = w.length) := by
  refine ⟨?_, by decide, ?_⟩
  · intro t hg
    constructor
    · intro p hp
      exact findNode_depth_le p t.root hp
    · exact height_attained (nodeCount t.root) t.root le_rfl hg
  · intro w f
    exact chain_height w f

theorem trie_stats_height_witness :
    (Trie.empty.insert ['a', 'b'] 1).goodDict ∧
    ((∀ p, (findNode (Trie.empty.insert ['a', 'b'] 1).root p).isSome →
        p.length ≤ (Trie.empty.insert ['a', 'b'] 1).stats.2.1) ∧
     (∃ p, (findNode (Trie.empty.insert ['a', 'b'] 1).root p).isSome ∧
        p.length = (Trie.empty.insert ['a', 'b'] 1).stats.2.1)) :=
  ⟨by decide, trie_stats_height.1 (Trie.empty.insert ['a', 'b'] 1) (by decide)⟩

/-- Claim C10: on every reachable state and `k ≥ 0`, every word returned by
`complete(P, k)` extends `P` and is contained in the trie, the returned
sequence has no duplicates, and its length is the minimum of `k` and the
number of stored words extending `P` (phrased via any duplicate-free
enumeration of that set). -/
theorem trie_complete_sound :
    ∀ (t : Trie) (p : List Char) (k : Int), t.Reachable → 0 ≤ k →
      ((∀ s ∈ t.complete p k, begins p s = true ∧ t.contains s = true) ∧
       (t.complete p k).Nodup ∧
       (∃ full : List (List Char), full.Nodup ∧
         (∀ s, s ∈ full ↔ (t.contains s = true ∧ begins p s = true)) ∧
         (t.complete p k).length = min k.toNat full.length)) := by
  intro t p k hr hk
  have hg : t.goodDict := (reachable_wf hr).1
  rcases complete_spec t p k hg hk with ⟨full, heq, hnd, hmem, _⟩
  refine ⟨?_, ?_, full, hnd, hmem, ?_⟩
  · intro s hs
    rw [heq] at hs
    have hsf : s ∈ full := List.take_subset _ _ hs
    exact ⟨((hmem s).1 hsf).2, ((hmem s).1 hsf).1⟩
  · rw [heq]
    exact hnd.sublist (List.take_sublist _ _)
  · rw [heq]
    exact List.length_take _ _

theorem trie_complete_sound_witness :
    Trie.Reachable (Trie.empty.insert ['a'] 1) ∧ (0 : Int) ≤ 1 ∧
    ((∀ s ∈ (Trie.empty.insert ['a'] 1).complete [] 1,
        begins [] s = true ∧ (Trie.empty.insert ['a'] 1).contains s = true) ∧
     ((Trie.empty.insert ['a'] 1).complete [] 1).Nodup ∧
     (∃ full : List (List Char), full.Nodup ∧
       (∀ s, s ∈ full ↔ ((Trie.empty.insert ['a'] 1).contains s = true ∧
          begins [] s = true)) ∧
       ((Trie.empty.insert ['a'] 1).complete [] 1).length = min (1 : Int).toNat full.length)) :=
  ⟨Trie.Reachable.insert _ _ Trie.Reachable.empty, by decide,
   trie_complete_sound (Trie.empty.insert ['a'] 1) [] 1
     (Trie.Reachable.insert _ _ Trie.Reachable.empty) (by decide)⟩
